import Mathlib

/-!
Verification of the graph-to-ILP scheduler (`scheduler.py`) of the
Automated-ILP-Scheduler repository.

The Python source is shallowly embedded: graphs are lists of labelled nodes
plus attributed edges (mirroring the `networkx.DiGraph` built by the edgelist
reader), Python dicts become association lists, recursive DFS routines take an
explicit fuel argument (returning `none` when the fuel is exhausted, which on
the Python side corresponds to non-termination / stack overflow), and Python
exceptions become `Except String` values carrying the source's message
strings.
-/

/-- Lexicographic strict comparison of character lists by code point,
mirroring Python's string ordering. -/
def charsLt : List Char → List Char → Bool
  | [], [] => false
  | [], _ :: _ => true
  | _ :: _, [] => false
  | a :: as, b :: bs =>
    if a.toNat < b.toNat then true
    else if a.toNat = b.toNat then charsLt as bs
    else false

/-- Python's `<=` on strings (code-point lexicographic). -/
def pyStrLe (a b : String) : Bool := !(charsLt b.data a.data)

/-- Python `sorted` on a list of labels (lexicographic).  The labels being
sorted are always duplicate-free here, so any sorting algorithm yields
Python's result. -/
def sortStr (l : List String) : List String :=
  l.insertionSort (fun a b => pyStrLe a b)

/-- An attributed directed edge, as produced by the edgelist reader:
`G.add_edge(src, dst, root=…, child=…, root_cost=…, child_cost=…)`. -/
structure Edge where
  src : String
  dst : String
  root : Nat
  child : Nat
  root_cost : Int
  child_cost : Int
deriving DecidableEq

/-- The in-memory DAG: node labels in insertion order plus attributed edges.
`networkx` iteration order over nodes is insertion order. -/
structure Graph where
  nodes : List String
  edges : List Edge
deriving DecidableEq

/-- `list(graph.nodes())[0]`: the designated source (first inserted node). -/
def Graph.source (g : Graph) : String := g.nodes.headD ""

/-- `list(graph.nodes())[-1]`: the designated sink (last inserted node). -/
def Graph.sink (g : Graph) : String := g.nodes.getLastD ""

/-- The directed edge pairs of the graph. -/
def Graph.edgePairs (g : Graph) : List (String × String) :=
  g.edges.map (fun e => (e.src, e.dst))

/-- `(a, b)` is an edge of `g`. -/
def Graph.EdgeP (g : Graph) (a b : String) : Prop := (a, b) ∈ g.edgePairs

instance (g : Graph) (a b : String) : Decidable (g.EdgeP a b) := by
  unfold Graph.EdgeP; infer_instance

/-- `sorted(list(graph.adj[node]))`: successors of a node in sorted order. -/
def adjSorted (g : Graph) (n : String) : List String :=
  sortStr ((g.edges.filter (fun e => e.src == n)).map (fun e => e.dst))

/-- `sorted(list(graph.predecessors(node)))`: predecessors in sorted order. -/
def predSorted (g : Graph) (n : String) : List String :=
  sortStr ((g.edges.filter (fun e => e.dst == n)).map (fun e => e.src))

/-- Well-formedness of the graph produced by the edgelist reader: distinct
node labels, at least a source and a sink, edges between declared nodes, and
no parallel edges (a `networkx.DiGraph` stores at most one edge per pair). -/
def Graph.Wf (g : Graph) : Prop :=
  g.nodes.Nodup ∧ 2 ≤ g.nodes.length ∧
    (∀ e ∈ g.edges, e.src ∈ g.nodes ∧ e.dst ∈ g.nodes) ∧ g.edgePairs.Nodup

instance (g : Graph) : Decidable g.Wf := by
  unfold Graph.Wf; infer_instance

/-- A walk in `g` from `a` to `b` of the given length (number of edges). -/
inductive WalkTo (g : Graph) : String → String → Nat → Prop where
  | nil (a : String) : WalkTo g a a 0
  | cons {a b c : String} {k : Nat} :
      g.EdgeP a b → WalkTo g b c k → WalkTo g a c (k + 1)

/-- The graph contains a cycle: a nonempty walk from some node to itself. -/
def Cyclic (g : Graph) : Prop := ∃ n k, WalkTo g n n (k + 1)

/-- State of the mobility DFS: the `unit_times` dict and the `seen` set.
The set is modelled as a duplicate-free list. -/
structure DfsSt where
  times : List (String × Int)
  seen : List String
deriving DecidableEq

/-- Python dict assignment `d[k] = v`: replace in place or append. -/
def updA {α β : Type} [DecidableEq α] : List (α × β) → α → β → List (α × β)
  | [], k, v => [(k, v)]
  | (k', v') :: rest, k, v =>
    if k' = k then (k, v) :: rest else (k', v') :: updA rest k v

/-- Python `set.add`. -/
def insS (s : List String) (n : String) : List String :=
  if n ∈ s then s else n :: s

/-- Embedding of `dfs(graph, node, unit_times, seen, level)`: forward DFS that
relaxes each node's time to the maximum level at which it is reached.  The
fuel argument bounds the recursion depth; `none` models non-termination.  The
`for child in children` loop is a fold threading the state. -/
def dfs (g : Graph) : Nat → String → Int → DfsSt → Option DfsSt
  | 0, _, _, _ => none
  | fuel + 1, node, level, st =>
    let lv := level + 1
    let nl := (st.times.lookup node).getD (-1)
    let times' := if nl < lv then updA st.times node lv else st.times
    (adjSorted g node).foldl (fun acc c => acc.bind (fun st2 => dfs g fuel c lv st2))
      (some ⟨times', insS st.seen node⟩)

/-- The `for child in children: dfs(...)` loop of `dfs`/`get_asap`. -/
def dfsList (g : Graph) (fuel : Nat) (cs : List String) (level : Int) (st : DfsSt) :
    Option DfsSt :=
  cs.foldl (fun acc c => acc.bind (fun st2 => dfs g fuel c level st2)) (some st)

/-- Embedding of `get_asap(graph)`.  Returns `none` when the fuel is
insufficient (which cannot happen on a validated DAG with enough fuel),
`some (.error …)` for the source's `raise`d exceptions, and
`some (.ok unit_times_asap)` on success. -/
def get_asap (g : Graph) (fuel : Nat) : Option (Except String (List (String × Int))) :=
  let s := g.source
  let children := adjSorted g s
  if children.isEmpty then
    some (.error "Invalid DFG, there are no children connected to source.")
  else
    match dfsList g fuel children 0 ⟨[(s, 0)], [s]⟩ with
    | none => none
    | some st =>
      if g.nodes.length ≠ st.seen.length then
        some (.error "Invalid DFG, there is at least one node that is untraversable from source.")
      else some (.ok st.times)

/-- Embedding of `dfs_reverse`: backward DFS relaxing to the minimum level
(`float('inf')` default is modelled by the `none` branch of the lookup). -/
def dfs_reverse (g : Graph) : Nat → String → Int → DfsSt → Option DfsSt
  | 0, _, _, _ => none
  | fuel + 1, node, level, st =>
    let lv := level - 1
    let times' :=
      match st.times.lookup node with
      | none => updA st.times node lv
      | some v => if lv < v then updA st.times node lv else st.times
    (predSorted g node).foldl (fun acc c => acc.bind (fun st2 => dfs_reverse g fuel c lv st2))
      (some ⟨times', insS st.seen node⟩)

/-- The `for parent in parents: dfs_reverse(...)` loop. -/
def dfsRevList (g : Graph) (fuel : Nat) (cs : List String) (level : Int) (st : DfsSt) :
    Option DfsSt :=
  cs.foldl (fun acc c => acc.bind (fun st2 => dfs_reverse g fuel c level st2)) (some st)

/-- Embedding of `get_alap(graph, latency_cstr)`. -/
def get_alap (g : Graph) (latency_cstr : Int) (fuel : Nat) :
    Option (Except String (List (String × Int))) :=
  let t := g.sink
  let parents := predSorted g t
  if parents.isEmpty then
    some (.error "Invalid DFG, there are no parents connected to sink.")
  else
    match dfsRevList g fuel parents (latency_cstr + 1) ⟨[(t, latency_cstr + 1)], [t]⟩ with
    | none => none
    | some st =>
      if g.nodes.length ≠ st.seen.length then
        some (.error "Invalid DFG, there is at least one node that is untraversable from sink.")
      else some (.ok st.times)

/-- Embedding of `is_cyclic(graph, node, visited, rec_stack)`.  In the source
`visited` and `rec_stack` alias the same dict, so the function effectively
keeps a single set of on-stack nodes (modelled by the duplicate-free list
`d`); the `if visited[node]: return False` branch is unreachable.  Returns the
flag together with the final state of the shared dict; the `for child`
loop with its early `return True` is a fold that stops updating once the
flag is set. -/
def is_cyclic (g : Graph) : Nat → String → List String → Option (Bool × List String)
  | 0, _, _ => none
  | fuel + 1, node, d =>
    if node ∈ d then some (true, d)
    else
      match (adjSorted g node).foldl (fun acc c => acc.bind (fun bd =>
          if bd.1 then some bd else is_cyclic g fuel c bd.2))
        (some (false, node :: d)) with
      | none => none
      | some (true, d') => some (true, d')
      | some (false, d') => some (false, d'.erase node)

/-- The `for child in children: if is_cyclic(...)` loop. -/
def isCyclicList (g : Graph) (fuel : Nat) (cs : List String) (d : List String) :
    Option (Bool × List String) :=
  cs.foldl (fun acc c => acc.bind (fun bd =>
    if bd.1 then some bd else is_cyclic g fuel c bd.2)) (some (false, d))

/-- The cycle-check loop of `run_scheduler`: `for node in graph.nodes():
if is_cyclic(graph, node, visited, rec_stack): raise …`, threading the shared
dict through the iterations.  `some true` means the exception is raised. -/
def cycleCheckLoop (g : Graph) (fuel : Nat) : List String → List String → Option Bool
  | [], _ => some false
  | n :: ns, d =>
    match is_cyclic g fuel n d with
    | none => none
    | some (true, _) => some true
    | some (false, d') => cycleCheckLoop g fuel ns d'

/-- The whole cycle check of `run_scheduler` (initial dict maps every node to
`False`, i.e. the empty on-stack set). -/
def cycleCheck (g : Graph) (fuel : Nat) : Option Bool :=
  cycleCheckLoop g fuel g.nodes []

/-- Embedding of `get_nodes(graph)`: sort the labels, remove the source and
sink, reinsert them at the front and back. -/
def get_nodes (g : Graph) : List String :=
  let s := g.source
  let t := g.sink
  s :: ((sortStr g.nodes).erase s).erase t ++ [t]

/-- Embedding of `get_node_unit_cost(graph)`: fold the edge attributes into
the `node_unit` and `unit_cost` dicts, then sort both by key. -/
def get_node_unit_cost (g : Graph) : List (String × Nat) × List (Nat × Int) :=
  let step := fun (acc : List (String × Nat) × List (Nat × Int)) (e : Edge) =>
    let nu := updA (updA acc.1 e.src e.root) e.dst e.child
    let uc := updA (updA acc.2 e.root e.root_cost) e.child e.child_cost
    (nu, uc)
  let folded := g.edges.foldl step ([], [])
  (folded.1.insertionSort (fun a b => pyStrLe a.1 b.1),
   folded.2.insertionSort (fun a b => a.1 ≤ b.1))

/-- Python `range(a, b + 1)` over integers, as a list. -/
def intRange (a b : Int) : List Int :=
  (List.range (b + 1 - a).toNat).map (fun i => a + i)

/-- Python list indexing `l[i]`, including negative indices; `none` models
`IndexError`. -/
def pyIdx (l : List Int) (i : Int) : Option Int :=
  if 0 ≤ i then l[i.toNat]?
  else if 0 ≤ (l.length : Int) + i then l[((l.length : Int) + i).toNat]? else none

/-- The variable subscript used by `generate_exec_cstrs` and
`generate_dep_cstrs`: `id = 'n' if node == 't' else id` (the *literal* label
`'t'`, not the positional sink). -/
def execId (k : Nat) (node : String) : String :=
  if node = "t" then "n" else toString k

/-- Embedding of the loop body of `generate_exec_cstrs`; `k` is both the
`enumerate` index and `cstr_id` (they advance together in the source). -/
def execCstrsLoop (asap alap : List (String × Int)) : Nat → List String → Except String (List String)
  | _, [] => .ok []
  | k, node :: rest =>
    match asap.lookup node, alap.lookup node with
    | some start_time, some end_time =>
      let terms := (intRange start_time end_time).map
        (fun time => "x_" ++ execId k node ++ "_" ++ toString time)
      let line := "  e" ++ toString k ++ ": " ++ String.intercalate " + " terms ++ " = 1"
      (execCstrsLoop asap alap (k + 1) rest).map (line :: ·)
    | _, _ => .error "KeyError"

/-- Embedding of `generate_exec_cstrs(graph, unit_times_asap, unit_times_alap,
generated_ilp)`. -/
def generate_exec_cstrs (g : Graph) (asap alap : List (String × Int)) :
    Except String (List String) :=
  execCstrsLoop asap alap 0 (get_nodes g)

/-- Embedding of the ML-RC branch of `generate_min_func`: iterate the
canonical nodes, skip critical-path nodes (recording interior ones), emit one
`{time}x_{id}_{time}` objective term and one integer variable per step of each
non-critical node's window.  Returns (objective terms, integer set, critical
path nodes). -/
def minFuncLoop (s t : String) (asap alap : List (String × Int)) :
    Nat → List String → Except String (List String × List String × List String)
  | _, [] => .ok ([], [], [])
  | k, node :: rest =>
    let id := if node = t then "n" else toString k
    match asap.lookup node, alap.lookup node with
    | some start_time, some end_time =>
      match minFuncLoop s t asap alap (k + 1) rest with
      | .error e => .error e
      | .ok (terms, ints, crit) =>
        if start_time = end_time then
          if node ≠ s ∧ node ≠ t then .ok (terms, ints, node :: crit)
          else .ok (terms, ints, crit)
        else
          let newTerms := (intRange start_time end_time).map
            (fun time => toString time ++ "x_" ++ id ++ "_" ++ toString time)
          let newInts := (intRange start_time end_time).map
            (fun time => "x_" ++ id ++ "_" ++ toString time)
          .ok (newTerms ++ terms, newInts ++ ints, crit)
    | _, _ => .error "KeyError"

/-- Embedding of `generate_min_func`.  Returns the appended objective lines,
the `integer_set` list and the `crit_path_nodes` list. -/
def generate_min_func (schedule_obj : String) (g : Graph)
    (asap alap : List (String × Int)) (unit_cost : List (Nat × Int)) :
    Except String (List String × List String × List String) :=
  let s := g.source
  let t := g.sink
  if schedule_obj = "ML-RC" then
    match minFuncLoop s t asap alap 0 (get_nodes g) with
    | .error e => .error e
    | .ok (terms, ints, crit) =>
      .ok (["  " ++ String.intercalate " + " terms], ints, crit)
  else if schedule_obj = "MR-LC" then
    let terms := ((unit_cost.drop 1).dropLast).map
      (fun uc => toString uc.2 ++ "a" ++ toString uc.1)
    .ok (["  " ++ String.intercalate " + " terms], [], [])
  else .ok ([], [], [])

/-- Candidate collection of `generate_rsrc_cstrs` for one time step: the nodes
of the current unit whose mobility window contains `time`; a missing dict key
models Python's `KeyError`. -/
def rsrcCandidates (asap alap : List (String × Int)) (time : Int) :
    List String → Except String (List String)
  | [] => .ok []
  | node :: rest =>
    match asap.lookup node, alap.lookup node with
    | some start_time, some end_time =>
      (rsrcCandidates asap alap time rest).map
        (fun cs => if start_time ≤ time ∧ time ≤ end_time then node :: cs else cs)
    | _, _ => .error "KeyError"

/-- The inner `for time in range(1, unit_times_alap['t'])` loop of
`generate_rsrc_cstrs` for a fixed unit; `k` is the running `cstr_id`, returned
with the lines so the outer loop can continue counting. -/
def rsrcTimeLoop (g : Graph) (asap alap : List (String × Int))
    (nodes_unit : List String) (lineEnd : String) :
    Nat → List Int → Except String (List String × Nat)
  | k, [] => .ok ([], k)
  | k, time :: rest =>
    match rsrcCandidates asap alap time nodes_unit with
    | .error e => .error e
    | .ok cands =>
      if cands.isEmpty then rsrcTimeLoop g asap alap nodes_unit lineEnd k rest
      else
        let terms := cands.map
          (fun node => "x_" ++ toString ((get_nodes g).indexOf node) ++ "_" ++ toString time)
        let line := "  " ++ "r" ++ toString k ++ ": " ++
          (String.intercalate " + " terms ++ lineEnd)
        match rsrcTimeLoop g asap alap nodes_unit lineEnd (k + 1) rest with
        | .error e => .error e
        | .ok (lines, k') => .ok (line :: lines, k')

/-- The subtrahend of a resource constraint: `unit_count[unit - 1]` under
ML-RC (Python integer list indexing on the `-a` argument), the variable
`a<unit>` under MR-LC.  The rendered right-hand side of the line is
returned: `" <= count"` or `" - a<unit> <= 0"`. -/
def rsrcLineEnd (schedule_obj : String) (unit_count : Option (List Int))
    (unit : Nat) : Except String String :=
  if schedule_obj = "ML-RC" then
    match unit_count with
    | none => .error "TypeError"
    | some counts =>
      match pyIdx counts ((unit : Int) - 1) with
      | none => .error "IndexError"
      | some c => .ok (" <= " ++ toString c)
  else if schedule_obj = "MR-LC" then .ok (" - a" ++ toString unit ++ " <= 0")
  else .error "UnboundLocalError"

/-- The outer `for unit, _ in list(unit_cost.items())[1:-1]` loop of
`generate_rsrc_cstrs`. -/
def rsrcUnitLoop (schedule_obj : String) (g : Graph)
    (node_unit : List (String × Nat)) (unit_count : Option (List Int))
    (asap alap : List (String × Int)) :
    Nat → List (Nat × Int) → Except String (List String)
  | _, [] => .ok []
  | k, (unit, _) :: rest =>
    let nodes_unit := (node_unit.filter (fun p => p.2 == unit)).map (fun p => p.1)
    match rsrcLineEnd schedule_obj unit_count unit with
    | .error e => .error e
    | .ok lineEnd =>
      match alap.lookup "t" with
      | none => .error "KeyError"
      | some tEnd =>
        match rsrcTimeLoop g asap alap nodes_unit lineEnd k (intRange 1 (tEnd - 1)) with
        | .error e => .error e
        | .ok (lines, k') =>
          (rsrcUnitLoop schedule_obj g node_unit unit_count asap alap k' rest).map
            (lines ++ ·)

/-- Embedding of `generate_rsrc_cstrs(schedule_obj, graph, unit_cost,
node_unit, unit_count, unit_times_asap, unit_times_alap, generated_ilp)`.
The time range `range(1, unit_times_alap['t'])` is looked up with the literal
key `'t'` inside the per-unit loop. -/
def generate_rsrc_cstrs (schedule_obj : String) (g : Graph)
    (unit_cost : List (Nat × Int)) (node_unit : List (String × Nat))
    (unit_count : Option (List Int)) (asap alap : List (String × Int)) :
    Except String (List String) :=
  rsrcUnitLoop schedule_obj g node_unit unit_count asap alap 0
    ((unit_cost.drop 1).dropLast)

/-- Python `str.replace(old, new, count)` specialised to single characters,
on the character list of the string. -/
def replCnt : List Char → Char → Char → Nat → List Char
  | [], _, _, _ => []
  | c :: cs, o, n, cnt =>
    if cnt = 0 then c :: cs
    else if c = o then n :: replCnt cs o n (cnt - 1)
    else c :: replCnt cs o n cnt

/-- Python `s.replace(old, new, count)` for single-character patterns. -/
def pyReplace (s : String) (o n : Char) (cnt : Nat) : String :=
  ⟨replCnt s.data o n cnt⟩

/-- One dependency-constraint line of `generate_dep_cstrs`: child terms and
parent terms are joined with `" - "` and the first `plus_count` dashes are
then replaced by `'+'`. -/
def depBodyV (g : Graph) (id : String)
    (start_time end_time parent_start parent_end : Int) (parent : String) : String :=
  let childTerms := (intRange start_time end_time).map
    (fun time => toString time ++ "x_" ++ id ++ "_" ++ toString time)
  let plus_count := childTerms.length - 1
  let parentTerms := (intRange parent_start parent_end).map
    (fun time => toString time ++ "x_" ++ toString ((get_nodes g).indexOf parent) ++ "_" ++ toString time)
  let joined := String.intercalate " - " (childTerms ++ parentTerms)
  pyReplace joined '-' '+' plus_count ++ " >= 1"

/-- One dependency-constraint line of `generate_dep_cstrs`. -/
def depLine (g : Graph) (k : Nat) (id : String)
    (start_time end_time parent_start parent_end : Int) (parent : String) : String :=
  "  " ++ "d" ++ toString k ++ ": " ++
    depBodyV g id start_time end_time parent_start parent_end parent

/-- The inner `for parent in parents` loop of `generate_dep_cstrs` for one
node; `k` is the running `cstr_id`. -/
def depParentLoop (g : Graph) (asap alap : List (String × Int)) (id : String)
    (start_time end_time : Int) :
    Nat → List String → Except String (List String × Nat)
  | k, [] => .ok ([], k)
  | k, parent :: rest =>
    match asap.lookup parent, alap.lookup parent with
    | some parent_start, some parent_end =>
      let slack := end_time - start_time
      let parent_slack := parent_end - parent_start
      if slack ≠ 0 ∨ parent_slack ≠ 0 then
        let line := depLine g k id start_time end_time parent_start parent_end parent
        match depParentLoop g asap alap id start_time end_time (k + 1) rest with
        | .error e => .error e
        | .ok (lines, k') => .ok (line :: lines, k')
      else depParentLoop g asap alap id start_time end_time k rest
    | _, _ => .error "KeyError"

/-- The outer loop of `generate_dep_cstrs` over the canonical nodes;
`idx` is the `enumerate` index and `k` the running `cstr_id`.  A node whose
sorted parent list is empty or starts with the source is skipped entirely. -/
def depNodeLoop (g : Graph) (asap alap : List (String × Int)) :
    Nat → Nat → List String → Except String (List String)
  | _, _, [] => .ok []
  | idx, k, node :: rest =>
    let id := execId idx node
    let parents := predSorted g node
    let s := (get_nodes g).headD ""
    if parents.isEmpty ∨ parents.headD "" = s then
      depNodeLoop g asap alap (idx + 1) k rest
    else
      match asap.lookup node, alap.lookup node with
      | some start_time, some end_time =>
        match depParentLoop g asap alap id start_time end_time k parents with
        | .error e => .error e
        | .ok (lines, k') =>
          (depNodeLoop g asap alap (idx + 1) k' rest).map (lines ++ ·)
      | _, _ => .error "KeyError"

/-- Embedding of `generate_dep_cstrs(graph, unit_times_asap, unit_times_alap,
generated_ilp)`. -/
def generate_dep_cstrs (g : Graph) (asap alap : List (String × Int)) :
    Except String (List String) :=
  depNodeLoop g asap alap 0 0 (get_nodes g)

/-- Embedding of `generate_closing(schedule_obj, integer_set, unit_cost,
generated_ilp)`. -/
def generate_closing (schedule_obj : String) (integer_set : List String)
    (unit_cost : List (Nat × Int)) : List String :=
  if schedule_obj = "ML-RC" then
    ["Integer", "  " ++ String.intercalate " " integer_set, "End"]
  else if schedule_obj = "MR-LC" then
    ["Integer",
     "  " ++ String.intercalate " " (((unit_cost.drop 1).dropLast).map
       (fun uc => "a" ++ toString uc.1)),
     "End"]
  else []

/-- Python truthiness of the optional `-l` latency argument (`args.latency`):
`None` and `0` are falsy. -/
def truthyInt : Option Int → Bool
  | none => false
  | some n => n ≠ 0

/-- Python truthiness of the optional `-a` area list (`args.area_cost`):
`None` and `[]` are falsy. -/
def truthyList : Option (List Int) → Bool
  | none => false
  | some l => ¬l.isEmpty

/-- The latency derivation of `run_scheduler`:
`latency_cstr = args.latency if args.latency else asap_latency_cstr`
followed by the feasibility check against `asap_latency_cstr`. -/
def latencyStep (latency : Option Int) (asap_latency_cstr : Int) : Except String Int :=
  let latency_cstr := if truthyInt latency then latency.getD 0 else asap_latency_cstr
  if latency_cstr < asap_latency_cstr then
    .error "Solution not posible, given latency constraint is too small."
  else .ok latency_cstr

/-- Embedding of `run_scheduler(schedule_obj, graph, args)` up to the point
where the generated LP lines are written to the file: cycle check, unit
tables, area-count check, ASAP, latency check, ALAP, then the five generation
phases.  `none` models non-termination of a recursive traversal; errors carry
the source's messages.  On success the result is the full `generated_ilp`
line list. -/
def run_scheduler (schedule_obj : String) (g : Graph) (latency : Option Int)
    (area_cost : Option (List Int)) (fuel : Nat) :
    Option (Except String (List String)) :=
  match cycleCheck g fuel with
  | none => none
  | some true => some (.error "Invalid DFG, there is a cycle detected in the graph.")
  | some false =>
    let node_unit := (get_node_unit_cost g).1
    let unit_cost := (get_node_unit_cost g).2
    if truthyList area_cost ∧ (unit_cost.length : Int) - 2 ≠ ((area_cost.getD []).length : Int) then
      some (.error "Wrong number of area constraints supplied.")
    else
      match get_asap g fuel with
      | none => none
      | some (.error e) => some (.error e)
      | some (.ok asap) =>
        match asap.lookup g.sink with
        | none => some (.error "KeyError")
        | some vt =>
          let asap_latency_cstr := vt - 1
          match latencyStep latency asap_latency_cstr with
          | .error e => some (.error e)
          | .ok latency_cstr =>
            match get_alap g latency_cstr fuel with
            | none => none
            | some (.error e) => some (.error e)
            | some (.ok alap) =>
              match generate_min_func schedule_obj g asap alap unit_cost with
              | .error e => some (.error e)
              | .ok (minLines, integer_set, _crit) =>
                match generate_exec_cstrs g asap alap with
                | .error e => some (.error e)
                | .ok execLines =>
                  match generate_rsrc_cstrs schedule_obj g unit_cost node_unit area_cost asap alap with
                  | .error e => some (.error e)
                  | .ok rsrcLines =>
                    match generate_dep_cstrs g asap alap with
                    | .error e => some (.error e)
                    | .ok depLines =>
                      some (.ok ("Minimize" :: minLines ++ "Subject To" :: execLines
                        ++ rsrcLines ++ depLines
                        ++ generate_closing schedule_obj integer_set unit_cost))

/-- Outcome of `main`'s objective selection. -/
inductive MainRes where
  | graphExit : MainRes
  | constraintExit : MainRes
  | nameError : MainRes
  | runs : List String → MainRes
deriving DecidableEq

/-- Embedding of the objective-selection logic of `main(argv)`: the
`if/elif` chain over truthiness of `args.latency` / `args.area_cost`, followed
by the dispatch on `schedule_obj`.  When no branch of the chain assigns
`schedule_obj`, the dispatch raises `NameError` (unbound local variable). -/
def mainSelect (graph : Option Graph) (latency : Option Int)
    (area_cost : Option (List Int)) : MainRes :=
  match graph with
  | none => .graphExit
  | some _ =>
    if latency = none ∧ area_cost = none then .constraintExit
    else if ¬truthyInt latency ∧ truthyList area_cost then .runs ["ML-RC"]
    else if truthyInt latency ∧ ¬truthyList area_cost then .runs ["MR-LC"]
    else if truthyInt latency ∧ truthyList area_cost then .runs ["ML-RC", "MR-LC"]
    else .nameError

/-- The canonical 9-operation DFG fixture of the repository (`edgelist.py`):
nodes `s, v1..v9, t` with units adder=1, shifter=2, alu=3, mult=4. -/
def gS1 : Graph :=
  { nodes := ["s", "v1", "v2", "v3", "v4", "v5", "v6", "v7", "v8", "v9", "t"],
    edges :=
      [⟨"s", "v1", 0, 3, 0, 3⟩, ⟨"s", "v2", 0, 3, 0, 3⟩, ⟨"s", "v3", 0, 4, 0, 5⟩,
       ⟨"v1", "v4", 3, 1, 3, 2⟩, ⟨"v2", "v5", 3, 2, 3, 2⟩, ⟨"v2", "v8", 3, 4, 3, 5⟩,
       ⟨"v3", "v6", 4, 3, 5, 3⟩, ⟨"v4", "v8", 1, 4, 2, 5⟩, ⟨"v4", "v7", 1, 4, 2, 5⟩,
       ⟨"v5", "v9", 2, 3, 2, 3⟩, ⟨"v6", "t", 3, 5, 3, 0⟩, ⟨"v7", "t", 4, 5, 5, 0⟩,
       ⟨"v8", "v9", 4, 3, 5, 3⟩, ⟨"v9", "t", 3, 5, 3, 0⟩] }

/-- A small DFG whose node `v2` has both the source and `v1` as predecessors;
the sorted parent list of `v2` starts with `s`. -/
def gDiamond : Graph :=
  { nodes := ["s", "v1", "v2", "t"],
    edges :=
      [⟨"s", "v1", 0, 1, 0, 2⟩, ⟨"s", "v2", 0, 1, 0, 2⟩,
       ⟨"v1", "v2", 1, 1, 2, 2⟩, ⟨"v2", "t", 1, 2, 2, 0⟩] }

/-- A three-node chain `s → a → t` with one interior operation. -/
def gChain : Graph :=
  { nodes := ["s", "a", "t"],
    edges := [⟨"s", "a", 0, 1, 0, 2⟩, ⟨"a", "t", 1, 2, 2, 0⟩] }

/-- A cyclic graph: `s → a → s`, plus `a → t`. -/
def gCyc : Graph :=
  { nodes := ["s", "a", "t"],
    edges := [⟨"s", "a", 0, 1, 0, 2⟩, ⟨"a", "s", 1, 0, 2, 0⟩, ⟨"a", "t", 1, 2, 2, 0⟩] }

/-- A two-node graph `s → z` with no node labelled `t` and no interior unit. -/
def gNoT : Graph :=
  { nodes := ["s", "z"], edges := [⟨"s", "z", 0, 1, 0, 0⟩] }

/-- A three-node chain `s → b → z` with no node labelled `t` but with one
interior unit. -/
def gNoT3 : Graph :=
  { nodes := ["s", "b", "z"],
    edges := [⟨"s", "b", 0, 1, 0, 2⟩, ⟨"b", "z", 1, 2, 2, 0⟩] }

/-- Render constraint bodies as labelled lines `"  <label><k>: <body>"` with
consecutive indices starting at `k`. -/
def renderIdx (label : String) : Nat → List String → List String
  | _, [] => []
  | k, body :: rest =>
    ("  " ++ label ++ toString k ++ ": " ++ body) :: renderIdx label (k + 1) rest

/-- Specification-side reference for the execution constraints, following the
spec's words: one line per node in canonical order, indices from 0, one term
per step of the node's `[ASAP, ALAP]` window, the sink (by role) using the
literal subscript `n`. -/
def execRef (g : Graph) (asap alap : List (String × Int)) : List String :=
  (List.enumFrom 0 (get_nodes g)).map (fun p =>
    let id := if p.2 = g.sink then "n" else toString p.1
    "  e" ++ toString p.1 ++ ": " ++ String.intercalate " + "
      ((intRange ((asap.lookup p.2).getD 0) ((alap.lookup p.2).getD 0)).map
        (fun time => "x_" ++ id ++ "_" ++ toString time)) ++ " = 1")

/-- Does the mobility window of `node` contain `time`? -/
def windowHas (asap alap : List (String × Int)) (time : Int) (node : String) : Bool :=
  ((asap.lookup node).getD 0 ≤ time && time ≤ (alap.lookup node).getD 0)

/-- Specification-side reference for the resource-constraint bodies: for each
interior unit (ascending) and each step `t` of `[1, L]` (ascending), the sum
of candidate execution variables followed by the objective-dependent tail;
nothing when the candidate set is empty. -/
def rsrcBodies (schedule_obj : String) (g : Graph) (unit_cost : List (Nat × Int))
    (node_unit : List (String × Nat)) (unit_count : Option (List Int))
    (asap alap : List (String × Int)) : List String :=
  ((unit_cost.drop 1).dropLast).flatMap (fun uc =>
    let nodes_unit := (node_unit.filter (fun p => p.2 == uc.1)).map (fun p => p.1)
    let lineEnd := ((rsrcLineEnd schedule_obj unit_count uc.1).toOption).getD ""
    (intRange 1 ((alap.lookup "t").getD 0 - 1)).filterMap (fun time =>
      let cands := nodes_unit.filter (windowHas asap alap time)
      if cands.isEmpty then none
      else some (String.intercalate " + " (cands.map
        (fun node => "x_" ++ toString ((get_nodes g).indexOf node) ++ "_" ++ toString time)) ++ lineEnd)))

/-- Specification-side reference for the resource constraints. -/
def rsrcRef (schedule_obj : String) (g : Graph) (unit_cost : List (Nat × Int))
    (node_unit : List (String × Nat)) (unit_count : Option (List Int))
    (asap alap : List (String × Int)) : List String :=
  renderIdx "r" 0 (rsrcBodies schedule_obj g unit_cost node_unit unit_count asap alap)

/-- The slack of a node given the mobility maps. -/
def slackOf (asap alap : List (String × Int)) (node : String) : Int :=
  (alap.lookup node).getD 0 - (asap.lookup node).getD 0

/-- The `(enumerate index, child, parent)` triples for which the source emits
a dependency constraint, in emission order: nodes in canonical order, a node
being skipped entirely when its sorted parent list is empty or starts with
the source; otherwise one triple per parent whose slack or whose child's
slack is nonzero. -/
def depTriplesFrom (g : Graph) (asap alap : List (String × Int))
    (l : List (Nat × String)) : List (Nat × String × String) :=
  l.flatMap (fun p =>
    let parents := predSorted g p.2
    if parents.isEmpty ∨ parents.headD "" = (get_nodes g).headD "" then []
    else (parents.filter (fun parent =>
        slackOf asap alap p.2 ≠ 0 ∨ slackOf asap alap parent ≠ 0)).map
      (fun parent => (p.1, p.2, parent)))

/-- The triples over the full canonical node enumeration. -/
def depTriples (g : Graph) (asap alap : List (String × Int)) : List (Nat × String × String) :=
  depTriplesFrom g asap alap (List.enumFrom 0 (get_nodes g))

/-- The body (everything after the `d<k>: ` label) of a dependency line. -/
def depBody (g : Graph) (asap alap : List (String × Int)) (idx : Nat)
    (node parent : String) : String :=
  depBodyV g (execId idx node) ((asap.lookup node).getD 0) ((alap.lookup node).getD 0)
    ((asap.lookup parent).getD 0) ((alap.lookup parent).getD 0) parent

/-- Specification-side reference for the dependency constraints. -/
def depRef (g : Graph) (asap alap : List (String × Int)) : List String :=
  renderIdx "d" 0 ((depTriples g asap alap).map
    (fun tr => depBody g asap alap tr.1 tr.2.1 tr.2.2))

/-- Specification-side reference for the ML-RC objective terms (amended):
one `t·x` term per (node with a nontrivial window, step of its window), over
the canonical node order, the sink (by role) using subscript `n`. -/
def mlrcObjTerms (g : Graph) (asap alap : List (String × Int)) : List String :=
  (List.enumFrom 0 (get_nodes g)).flatMap (fun p =>
    let a := (asap.lookup p.2).getD 0
    let b := (alap.lookup p.2).getD 0
    if a = b then []
    else (intRange a b).map (fun time =>
      toString time ++ "x_" ++ (if p.2 = g.sink then "n" else toString p.1) ++ "_" ++ toString time))

/-- Specification-side reference for the ML-RC integer set. -/
def mlrcIntSet (g : Graph) (asap alap : List (String × Int)) : List String :=
  (List.enumFrom 0 (get_nodes g)).flatMap (fun p =>
    let a := (asap.lookup p.2).getD 0
    let b := (alap.lookup p.2).getD 0
    if a = b then []
    else (intRange a b).map (fun time =>
      "x_" ++ (if p.2 = g.sink then "n" else toString p.1) ++ "_" ++ toString time))

/-- Specification-side reference for the recorded critical-path nodes:
interior nodes with zero slack, in canonical order. -/
def mlrcCrit (g : Graph) (asap alap : List (String × Int)) : List String :=
  (get_nodes g).filter (fun node =>
    decide ((asap.lookup node).getD 0 = (alap.lookup node).getD 0 ∧
      node ≠ g.source ∧ node ≠ g.sink))

/-- The claim's reference value for the ASAP step of a non-source node: the
maximum over its predecessors `p` of `ASAP(p) + 1`. -/
def asapSpecVal (m : List (String × Int)) (preds : List String) : Int :=
  preds.foldl (fun acc p => max acc ((m.lookup p).getD 0 + 1)) 0

theorem mem_sortStr {a : String} {l : List String} : a ∈ sortStr l ↔ a ∈ l :=
  (List.perm_insertionSort (fun a b => pyStrLe a b = true) l).mem_iff

theorem sortStr_perm (l : List String) : (sortStr l).Perm l :=
  List.perm_insertionSort (fun a b => pyStrLe a b = true) l

theorem nodup_sortStr {l : List String} (h : l.Nodup) : (sortStr l).Nodup :=
  (sortStr_perm l).nodup_iff.mpr h

theorem mem_adjSorted {g : Graph} {n c : String} :
    c ∈ adjSorted g n ↔ g.EdgeP n c := by
  unfold adjSorted Graph.EdgeP Graph.edgePairs
  rw [mem_sortStr]
  simp only [List.mem_map, List.mem_filter, beq_iff_eq, Prod.mk.injEq]
  constructor
  · rintro ⟨e, ⟨he, hsrc⟩, hdst⟩
    exact ⟨e, he, hsrc, hdst⟩
  · rintro ⟨e, he, hsrc, hdst⟩
    exact ⟨e, ⟨he, hsrc⟩, hdst⟩

theorem mem_predSorted {g : Graph} {n p : String} :
    p ∈ predSorted g n ↔ g.EdgeP p n := by
  unfold predSorted Graph.EdgeP Graph.edgePairs
  rw [mem_sortStr]
  simp only [List.mem_map, List.mem_filter, beq_iff_eq, Prod.mk.injEq]
  constructor
  · rintro ⟨e, ⟨he, hdst⟩, hsrc⟩
    exact ⟨e, he, hsrc, hdst⟩
  · rintro ⟨e, he, hsrc, hdst⟩
    exact ⟨e, ⟨he, hdst⟩, hsrc⟩

theorem source_mem {g : Graph} (h : 2 ≤ g.nodes.length) : g.source ∈ g.nodes := by
  unfold Graph.source
  match hn : g.nodes with
  | [] => rw [hn] at h; simp at h
  | a :: rest => simp

theorem sink_mem {g : Graph} (h : 2 ≤ g.nodes.length) : g.sink ∈ g.nodes := by
  unfold Graph.sink
  match hn : g.nodes with
  | [] => rw [hn] at h; simp at h
  | a :: rest =>
    rw [List.getLastD_eq_getLast?, List.getLast?_eq_getLast (a :: rest) (by simp)]
    simp [List.getLast_mem]

theorem getLastD_eq_getLast {l : List String} (h : l ≠ []) (d : String) :
    l.getLastD d = l.getLast h := by
  rw [List.getLastD_eq_getLast?, List.getLast?_eq_getLast l h]
  rfl

theorem source_ne_sink {g : Graph} (hn : g.nodes.Nodup) (h : 2 ≤ g.nodes.length) :
    g.source ≠ g.sink := by
  unfold Graph.source Graph.sink
  match hl : g.nodes, hn, h with
  | [], hn, h => simp at h
  | [a], hn, h => simp at h
  | a :: b :: rest, hn, h =>
    simp only [List.headD_cons]
    rw [List.getLastD_cons, getLastD_eq_getLast (l := b :: rest) (by simp) a]
    intro hcontra
    exact (List.nodup_cons.mp hn).1 (hcontra ▸ List.getLast_mem (by simp))

theorem get_nodes_perm {g : Graph} (hwf : g.Wf) : (get_nodes g).Perm g.nodes := by
  obtain ⟨hnd, hlen, -, -⟩ := hwf
  have hs : g.source ∈ sortStr g.nodes := mem_sortStr.mpr (source_mem hlen)
  have ht : g.sink ∈ (sortStr g.nodes).erase g.source :=
    (List.mem_erase_of_ne (Ne.symm (source_ne_sink hnd hlen))).mpr
      (mem_sortStr.mpr (sink_mem hlen))
  have p1 : (sortStr g.nodes).Perm (g.source :: (sortStr g.nodes).erase g.source) :=
    List.perm_cons_erase hs
  have p2 : ((sortStr g.nodes).erase g.source).Perm
      (g.sink :: ((sortStr g.nodes).erase g.source).erase g.sink) :=
    List.perm_cons_erase ht
  have p0 : (get_nodes g).Perm
      (g.source :: g.sink :: ((sortStr g.nodes).erase g.source).erase g.sink) := by
    unfold get_nodes
    exact List.Perm.cons _ (List.perm_append_singleton _ _)
  exact ((p0.trans (List.Perm.cons _ p2.symm)).trans p1.symm).trans (sortStr_perm g.nodes)

theorem get_nodes_length {g : Graph} (hwf : g.Wf) :
    (get_nodes g).length = g.nodes.length :=
  (get_nodes_perm hwf).length_eq

theorem mem_get_nodes {g : Graph} (hwf : g.Wf) {a : String} :
    a ∈ get_nodes g ↔ a ∈ g.nodes := (get_nodes_perm hwf).mem_iff

theorem get_nodes_nodup {g : Graph} (hwf : g.Wf) : (get_nodes g).Nodup :=
  (get_nodes_perm hwf).nodup_iff.mpr hwf.1

theorem lookup_updA_self (l : List (String × Int)) (k : String) (v : Int) :
    (updA l k v).lookup k = some v := by
  induction l with
  | nil => simp [updA, List.lookup_cons]
  | cons p rest ih =>
    obtain ⟨a, w⟩ := p
    by_cases h : a = k
    · simp [updA, h, List.lookup_cons]
    · simp only [updA]
      rw [if_neg h]
      rw [List.lookup_cons]
      simp only [beq_false_of_ne (Ne.symm h)]
      exact ih

theorem lookup_updA_ne (l : List (String × Int)) (k k' : String) (v : Int)
    (h : k' ≠ k) : (updA l k v).lookup k' = l.lookup k' := by
  induction l with
  | nil => simp [updA, List.lookup_cons, beq_false_of_ne h]
  | cons p rest ih =>
    obtain ⟨a, w⟩ := p
    by_cases hp : a = k
    · subst hp
      simp only [updA, if_true]
      rw [List.lookup_cons, List.lookup_cons]
      simp only [beq_false_of_ne h]
    · simp only [updA]
      rw [if_neg hp]
      rw [List.lookup_cons, List.lookup_cons]
      by_cases hp' : k' = a
      · simp [hp']
      · simp only [beq_false_of_ne hp']
        exact ih

theorem lookup_updA_isSome (l : List (String × Int)) (k k' : String) (v : Int)
    (h : (l.lookup k').isSome) : ((updA l k v).lookup k').isSome := by
  by_cases hk : k' = k
  · subst hk; rw [lookup_updA_self]; rfl
  · rw [lookup_updA_ne l k k' v hk]; exact h

theorem mem_insS {s : List String} {n m : String} :
    m ∈ insS s n ↔ m = n ∨ m ∈ s := by
  unfold insS
  by_cases h : n ∈ s
  · rw [if_pos h]
    constructor
    · exact Or.inr
    · rintro (rfl | hm)
      · exact h
      · exact hm
  · rw [if_neg h]
    simp

theorem nodup_insS {s : List String} (h : s.Nodup) (n : String) :
    (insS s n).Nodup := by
  unfold insS
  by_cases hm : n ∈ s
  · rwa [if_pos hm]
  · rw [if_neg hm]
    exact List.nodup_cons.mpr ⟨hm, h⟩

theorem subset_insS {s : List String} (n : String) : s ⊆ insS s n := by
  intro x hx
  exact mem_insS.mpr (Or.inr hx)

theorem WalkTo.trans {g : Graph} {a b c : String} {j k : Nat}
    (h1 : WalkTo g a b j) (h2 : WalkTo g b c k) : WalkTo g a c (j + k) := by
  induction h1 with
  | nil => simpa using h2
  | cons e _ ih =>
    have := WalkTo.cons e (ih h2)
    rwa [show (_ + k + 1 = _ + 1 + k) from Nat.add_right_comm _ k 1] at this

theorem walkTo_snoc {g : Graph} {a b c : String} {k : Nat}
    (h1 : WalkTo g a b k) (h2 : g.EdgeP b c) : WalkTo g a c (k + 1) :=
  h1.trans (WalkTo.cons h2 (WalkTo.nil c))

theorem walkTo_zero {g : Graph} {a b : String} (h : WalkTo g a b 0) : a = b := by
  cases h; rfl

theorem walkTo_last_edge {g : Graph} {a c : String} {k : Nat}
    (h : WalkTo g a c (k + 1)) : ∃ b, WalkTo g a b k ∧ g.EdgeP b c := by
  induction k generalizing a with
  | zero =>
    cases h with
    | cons e w => exact ⟨a, WalkTo.nil a, (walkTo_zero w) ▸ e⟩
  | succ k ih =>
    cases h with
    | cons e w =>
      obtain ⟨b, wb, eb⟩ := ih w
      exact ⟨b, WalkTo.cons e wb, eb⟩

theorem walkTo_pump {g : Graph} {a : String} {j : Nat}
    (h : WalkTo g a a j) (m : Nat) : WalkTo g a a (m * j) := by
  induction m with
  | zero => simpa using WalkTo.nil a
  | succ m ih =>
    have := ih.trans h
    rwa [show m * j + j = (m + 1) * j from (Nat.succ_mul m j).symm] at this
theorem edgeP_mem {g : Graph} {a b : String}
    (hwf : ∀ e ∈ g.edges, e.src ∈ g.nodes ∧ e.dst ∈ g.nodes)
    (h : g.EdgeP a b) : a ∈ g.nodes ∧ b ∈ g.nodes := by
  unfold Graph.EdgeP Graph.edgePairs at h
  simp only [List.mem_map, Prod.mk.injEq] at h
  obtain ⟨e, he, h1, h2⟩ := h
  subst h1; subst h2
  exact hwf e he

theorem walk_start_mem {g : Graph} {a b : String} {k : Nat}
    (hwf : ∀ e ∈ g.edges, e.src ∈ g.nodes ∧ e.dst ∈ g.nodes)
    (h : WalkTo g a b (k + 1)) : a ∈ g.nodes := by
  cases h with
  | cons e _ => exact (edgeP_mem hwf e).1

theorem walk_end_mem {g : Graph} {a b : String} {k : Nat}
    (hwf : ∀ e ∈ g.edges, e.src ∈ g.nodes ∧ e.dst ∈ g.nodes)
    (h : WalkTo g a b (k + 1)) : b ∈ g.nodes := by
  obtain ⟨c, -, e⟩ := walkTo_last_edge h
  exact (edgeP_mem hwf e).2

theorem renderIdx_append (label : String) (k : Nat) (l1 l2 : List String) :
    renderIdx label k (l1 ++ l2) =
      renderIdx label k l1 ++ renderIdx label (k + l1.length) l2 := by
  induction l1 generalizing k with
  | nil => simp [renderIdx]
  | cons b rest ih =>
    have h1 : k + (b :: rest).length = (k + 1) + rest.length := by
      simp only [List.length_cons]; omega
    rw [h1]
    show ("  " ++ label ++ toString k ++ ": " ++ b) :: renderIdx label (k + 1) (rest ++ l2) = _
    rw [ih (k + 1)]
    rfl

theorem renderIdx_length (label : String) (k : Nat) (l : List String) :
    (renderIdx label k l).length = l.length := by
  induction l generalizing k with
  | nil => rfl
  | cons b rest ih => simp [renderIdx, ih]

theorem execCstrsLoop_eq (asap alap : List (String × Int)) (tS : String)
    (l : List String) (k : Nat)
    (hdef : ∀ node ∈ l, (asap.lookup node).isSome ∧ (alap.lookup node).isSome)
    (ht : ∀ node ∈ l, node = "t" ↔ node = tS) :
    execCstrsLoop asap alap k l = .ok ((List.enumFrom k l).map (fun p =>
      let id := if p.2 = tS then "n" else toString p.1
      "  e" ++ toString p.1 ++ ": " ++ String.intercalate " + "
        ((intRange ((asap.lookup p.2).getD 0) ((alap.lookup p.2).getD 0)).map
          (fun time => "x_" ++ id ++ "_" ++ toString time)) ++ " = 1")) := by
  induction l generalizing k with
  | nil => simp [execCstrsLoop]
  | cons node rest ih =>
    obtain ⟨⟨va, ha⟩, vb, hb⟩ :
        (∃ va, asap.lookup node = some va) ∧ ∃ vb, alap.lookup node = some vb := by
      obtain ⟨h1, h2⟩ := hdef node (by simp)
      exact ⟨Option.isSome_iff_exists.mp h1, Option.isSome_iff_exists.mp h2⟩
    simp only [execCstrsLoop, ha, hb]
    rw [ih (k + 1) (fun n hn => hdef n (by simp [hn])) (fun n hn => ht n (by simp [hn]))]
    simp only [Except.map, List.enumFrom_cons, List.map_cons]
    congr 1
    have hid : execId k node = if node = tS then "n" else toString k := by
      unfold execId
      by_cases hcase : node = "t"
      · rw [if_pos hcase, if_pos ((ht node (by simp)).mp hcase)]
      · rw [if_neg hcase, if_neg (fun hc => hcase ((ht node (by simp)).mpr hc))]
    simp [hid, ha, hb]

/-- C7: for a validated graph whose sink carries the conventional label `t`
and mobility maps covering every node, `generate_exec_cstrs` emits exactly
`|V|` execution constraints, one per node in canonical order (labels sorted
ascending, source first, sink last), each listing one term per step of the
node's `[ASAP, ALAP]` window, with the sink using the literal subscript `n`
and the labels `e<k>` counting from 0. -/
theorem exec_cstrs_spec (g : Graph) (asap alap : List (String × Int))
    (hwf : g.Wf) (hsink : g.sink = "t")
    (hdef : ∀ node ∈ g.nodes, (asap.lookup node).isSome ∧ (alap.lookup node).isSome) :
    generate_exec_cstrs g asap alap = .ok (execRef g asap alap) ∧
      (execRef g asap alap).length = g.nodes.length := by
  constructor
  · unfold generate_exec_cstrs execRef
    exact execCstrsLoop_eq asap alap g.sink (get_nodes g) 0
      (fun n hn => hdef n ((mem_get_nodes hwf).mp hn))
      (fun n _ => by rw [hsink])
  · unfold execRef
    rw [List.length_map, List.enumFrom_length]
    exact get_nodes_length hwf

theorem depParentLoop_eq (g : Graph) (asap alap : List (String × Int))
    (node : String) (idx : Nat) (st en : Int)
    (hst : asap.lookup node = some st) (hen : alap.lookup node = some en) :
    ∀ (parents : List String) (k : Nat),
    (∀ p ∈ parents, (asap.lookup p).isSome ∧ (alap.lookup p).isSome) →
    depParentLoop g asap alap (execId idx node) st en k parents =
      .ok (renderIdx "d" k ((parents.filter (fun parent =>
            slackOf asap alap node ≠ 0 ∨ slackOf asap alap parent ≠ 0)).map
          (depBody g asap alap idx node)),
        k + ((parents.filter (fun parent =>
            slackOf asap alap node ≠ 0 ∨ slackOf asap alap parent ≠ 0)).map
          (depBody g asap alap idx node)).length) := by
  intro parents
  induction parents with
  | nil => intro k _; simp [depParentLoop, renderIdx]
  | cons p rest ih =>
    intro k hdefp
    obtain ⟨hpa, hpb⟩ := hdefp p (by simp)
    obtain ⟨pst, hpst⟩ := Option.isSome_iff_exists.mp hpa
    obtain ⟨pen, hpen⟩ := Option.isSome_iff_exists.mp hpb
    have hrest : ∀ q ∈ rest, (asap.lookup q).isSome ∧ (alap.lookup q).isSome :=
      fun q hq => hdefp q (by simp [hq])
    have hslack : slackOf asap alap node = en - st := by
      unfold slackOf; rw [hst, hen]; rfl
    have hpslack : slackOf asap alap p = pen - pst := by
      unfold slackOf; rw [hpst, hpen]; rfl
    by_cases hc : en - st ≠ 0 ∨ pen - pst ≠ 0
    · have hfil : (p :: rest).filter (fun parent =>
          slackOf asap alap node ≠ 0 ∨ slackOf asap alap parent ≠ 0) =
          p :: rest.filter (fun parent =>
            slackOf asap alap node ≠ 0 ∨ slackOf asap alap parent ≠ 0) := by
        rw [List.filter_cons, if_pos (by simp [hslack, hpslack, hc])]
      simp only [depParentLoop, hpst, hpen]
      rw [if_pos hc, ih (k + 1) hrest]
      simp only [Except.ok.injEq, hfil, List.map_cons, List.length_cons, renderIdx,
        Prod.mk.injEq, List.cons.injEq]
      refine ⟨⟨?_, trivial⟩, by omega⟩
      unfold depLine depBody
      rw [hst, hen, hpst, hpen]
      rfl
    · have hfil : (p :: rest).filter (fun parent =>
          slackOf asap alap node ≠ 0 ∨ slackOf asap alap parent ≠ 0) =
          rest.filter (fun parent =>
            slackOf asap alap node ≠ 0 ∨ slackOf asap alap parent ≠ 0) := by
        rw [List.filter_cons, if_neg (by simp_all [hslack, hpslack])]
      simp only [depParentLoop, hpst, hpen]
      rw [if_neg hc, ih k hrest, hfil]

theorem get_nodes_headD (g : Graph) : (get_nodes g).headD "" = g.source := rfl

theorem depNodeLoop_eq (g : Graph) (asap alap : List (String × Int)) :
    ∀ (l : List String) (idx k : Nat),
    (∀ node ∈ l, (asap.lookup node).isSome ∧ (alap.lookup node).isSome) →
    (∀ node ∈ l, ∀ p ∈ predSorted g node,
      (asap.lookup p).isSome ∧ (alap.lookup p).isSome) →
    depNodeLoop g asap alap idx k l =
      .ok (renderIdx "d" k ((depTriplesFrom g asap alap (List.enumFrom idx l)).map
        (fun tr => depBody g asap alap tr.1 tr.2.1 tr.2.2))) := by
  intro l
  induction l with
  | nil => intro idx k _ _; simp [depNodeLoop, depTriplesFrom, renderIdx]
  | cons node rest ih =>
    intro idx k hdef hdefp
    have hrest1 : ∀ n ∈ rest, (asap.lookup n).isSome ∧ (alap.lookup n).isSome :=
      fun n hn => hdef n (by simp [hn])
    have hrest2 : ∀ n ∈ rest, ∀ p ∈ predSorted g n,
        (asap.lookup p).isSome ∧ (alap.lookup p).isSome :=
      fun n hn => hdefp n (by simp [hn])
    have hunf : depTriplesFrom g asap alap (List.enumFrom idx (node :: rest)) =
        (if (predSorted g node).isEmpty ∨
            (predSorted g node).headD "" = (get_nodes g).headD "" then []
         else ((predSorted g node).filter (fun parent =>
             slackOf asap alap node ≠ 0 ∨ slackOf asap alap parent ≠ 0)).map
           (fun parent => (idx, node, parent))) ++
          depTriplesFrom g asap alap (List.enumFrom (idx + 1) rest) := by
      rw [List.enumFrom_cons]
      rfl
    by_cases hskip : (predSorted g node).isEmpty ∨
        (predSorted g node).headD "" = (get_nodes g).headD ""
    · simp only [depNodeLoop]
      rw [if_pos hskip, ih (idx + 1) k hrest1 hrest2, hunf, if_pos hskip]
      rfl
    · obtain ⟨⟨st, hst⟩, en, hen⟩ :
          (∃ a, asap.lookup node = some a) ∧ ∃ b, alap.lookup node = some b := by
        obtain ⟨h1, h2⟩ := hdef node (by simp)
        exact ⟨Option.isSome_iff_exists.mp h1, Option.isSome_iff_exists.mp h2⟩
      simp only [depNodeLoop]
      rw [if_neg hskip, hst, hen]
      dsimp only
      rw [depParentLoop_eq g asap alap node idx st en hst hen (predSorted g node) k
        (hdefp node (by simp))]
      dsimp only
      rw [ih (idx + 1)
        (k + ((List.filter (fun parent =>
            decide (slackOf asap alap node ≠ 0 ∨ slackOf asap alap parent ≠ 0))
          (predSorted g node)).map (depBody g asap alap idx node)).length)
        hrest1 hrest2]
      simp only [Except.map, hunf, if_neg hskip]
      rw [List.map_append, renderIdx_append]
      simp only [List.map_map, List.length_map, Except.ok.injEq]
      rfl

theorem mem_enumFrom_of_mem {α : Type} {l : List α} {v : α} :
    ∀ n : Nat, v ∈ l → ∃ idx, (idx, v) ∈ List.enumFrom n l := by
  induction l with
  | nil => intro n h; simp at h
  | cons a rest ih =>
    intro n h
    rcases List.mem_cons.mp h with rfl | hr
    · exact ⟨n, by simp [List.enumFrom_cons]⟩
    · obtain ⟨idx, hidx⟩ := ih (n + 1) hr
      exact ⟨idx, by simp [List.enumFrom_cons, hidx]⟩

/-- C1 (amended): for a validated graph with total mobility maps, the
dependency constraints are exactly `depRef`: nodes are scanned in canonical
order and a node is skipped entirely when its sorted predecessor list is
empty or starts with the source; otherwise one constraint of the stated form
is emitted for each predecessor `u` (including `u = s`) such that not both
`slack(u)` and `slack(v)` are zero.  Consequently a dependency constraint
exists for the edge `u → v` iff `v`'s predecessor list is nonempty, its first
sorted predecessor is not the source, and the slacks are not both zero. -/
theorem dep_cstrs_amended (g : Graph) (asap alap : List (String × Int)) (hwf : g.Wf)
    (hdef : ∀ node ∈ g.nodes, (asap.lookup node).isSome ∧ (alap.lookup node).isSome) :
    generate_dep_cstrs g asap alap = .ok (depRef g asap alap) ∧
    (∀ u v : String, g.EdgeP u v →
      ((∃ idx, (idx, v, u) ∈ depTriples g asap alap) ↔
        (predSorted g v ≠ [] ∧ (predSorted g v).headD "" ≠ g.source ∧
          (slackOf asap alap v ≠ 0 ∨ slackOf asap alap u ≠ 0)))) := by
  have hdefp : ∀ node ∈ get_nodes g, ∀ p ∈ predSorted g node,
      (asap.lookup p).isSome ∧ (alap.lookup p).isSome := by
    intro node _ p hp
    exact hdef p (edgeP_mem hwf.2.2.1 (mem_predSorted.mp hp)).1
  constructor
  · unfold generate_dep_cstrs depRef depTriples
    exact depNodeLoop_eq g asap alap (get_nodes g) 0 0
      (fun n hn => hdef n ((mem_get_nodes hwf).mp hn)) hdefp
  · intro u v hedge
    constructor
    · rintro ⟨idx, hmem⟩
      unfold depTriples depTriplesFrom at hmem
      obtain ⟨p, -, hbr⟩ := List.mem_flatMap.mp hmem
      by_cases hskip : (predSorted g p.2).isEmpty ∨
          (predSorted g p.2).headD "" = (get_nodes g).headD ""
      · rw [if_pos hskip] at hbr
        simp at hbr
      · rw [if_neg hskip] at hbr
        obtain ⟨parent, hpar, heq⟩ := List.mem_map.mp hbr
        obtain ⟨-, hv, hu⟩ : p.1 = idx ∧ p.2 = v ∧ parent = u := by
          simpa [Prod.ext_iff] using heq
        subst hv; subst hu
        push_neg at hskip
        obtain ⟨hne, hhead⟩ := hskip
        refine ⟨by simpa using hne, ?_, ?_⟩
        · rwa [get_nodes_headD] at hhead
        · have := (List.mem_filter.mp hpar).2
          simpa using this
    · rintro ⟨hne, hhead, hslack⟩
      have hv : v ∈ get_nodes g :=
        (mem_get_nodes hwf).mpr (edgeP_mem hwf.2.2.1 hedge).2
      obtain ⟨idx, hidx⟩ := mem_enumFrom_of_mem 0 hv
      refine ⟨idx, ?_⟩
      unfold depTriples depTriplesFrom
      refine List.mem_flatMap.mpr ⟨(idx, v), hidx, ?_⟩
      rw [if_neg (by
        push_neg
        refine ⟨by simpa using hne, ?_⟩
        rwa [get_nodes_headD])]
      refine List.mem_map.mpr ⟨u, ?_, rfl⟩
      refine List.mem_filter.mpr ⟨mem_predSorted.mpr hedge, by simpa using hslack⟩

/-- C1 counterexample: in `gDiamond` with effective latency 3, the edge
`v1 → v2` has a non-source predecessor with positive slack, yet the emitted
dependency block is a single constraint (for `v2 → t` only): `v2`'s sorted
parent list starts with `s`, so the whole node — including the `v1 → v2`
edge — is skipped.  The claim predicts one constraint for each of the two
qualifying edges. -/
theorem dep_cstrs_claim_counterexample :
    get_asap gDiamond 10 =
      some (.ok [("s", 0), ("v1", 1), ("v2", 2), ("t", 3)]) ∧
    get_alap gDiamond 3 10 =
      some (.ok [("t", 4), ("v2", 3), ("s", 1), ("v1", 2)]) ∧
    gDiamond.EdgeP "v1" "v2" ∧ "v1" ≠ gDiamond.source ∧
    slackOf [("s", 0), ("v1", 1), ("v2", 2), ("t", 3)]
      [("t", 4), ("v2", 3), ("s", 1), ("v1", 2)] "v1" = 1 ∧
    generate_dep_cstrs gDiamond [("s", 0), ("v1", 1), ("v2", 2), ("t", 3)]
      [("t", 4), ("v2", 3), ("s", 1), ("v1", 2)] =
      .ok ["  d0: 3x_n_3 + 4x_n_4 - 2x_2_2 - 3x_2_3 >= 1"] ∧
    (gDiamond.edges.filter (fun e => e.src ≠ gDiamond.source ∧
      (slackOf [("s", 0), ("v1", 1), ("v2", 2), ("t", 3)]
         [("t", 4), ("v2", 3), ("s", 1), ("v1", 2)] e.src ≠ 0 ∨
       slackOf [("s", 0), ("v1", 1), ("v2", 2), ("t", 3)]
         [("t", 4), ("v2", 3), ("s", 1), ("v1", 2)] e.dst ≠ 0))).length = 2 :=
  ⟨rfl, rfl, by decide, by decide, rfl, rfl, rfl⟩

/-- Witness for the amended C1 theorem at the `gDiamond` instance. -/
theorem dep_cstrs_amended_witness :
    generate_dep_cstrs gDiamond [("s", 0), ("v1", 1), ("v2", 2), ("t", 3)]
      [("t", 4), ("v2", 3), ("s", 1), ("v1", 2)] =
      .ok (depRef gDiamond [("s", 0), ("v1", 1), ("v2", 2), ("t", 3)]
        [("t", 4), ("v2", 3), ("s", 1), ("v1", 2)]) :=
  (dep_cstrs_amended gDiamond
    [("s", 0), ("v1", 1), ("v2", 2), ("t", 3)]
    [("t", 4), ("v2", 3), ("s", 1), ("v1", 2)] (by decide) (by decide)).1

/-- Witness for the C7 theorem at the canonical fixture `gS1` with the maps
produced by the pipeline at latency 4. -/
theorem exec_cstrs_spec_witness :
    generate_exec_cstrs gS1
        [("s", 0), ("v1", 1), ("v4", 2), ("v7", 3), ("t", 5), ("v8", 3),
         ("v9", 4), ("v2", 1), ("v5", 2), ("v3", 1), ("v6", 2)]
        [("t", 5), ("v6", 4), ("v3", 3), ("s", 0), ("v7", 4), ("v4", 2),
         ("v1", 1), ("v9", 4), ("v5", 3), ("v2", 2), ("v8", 3)] =
      .ok (execRef gS1
        [("s", 0), ("v1", 1), ("v4", 2), ("v7", 3), ("t", 5), ("v8", 3),
         ("v9", 4), ("v2", 1), ("v5", 2), ("v3", 1), ("v6", 2)]
        [("t", 5), ("v6", 4), ("v3", 3), ("s", 0), ("v7", 4), ("v4", 2),
         ("v1", 1), ("v9", 4), ("v5", 3), ("v2", 2), ("v8", 3)]) ∧
    (execRef gS1
        [("s", 0), ("v1", 1), ("v4", 2), ("v7", 3), ("t", 5), ("v8", 3),
         ("v9", 4), ("v2", 1), ("v5", 2), ("v3", 1), ("v6", 2)]
        [("t", 5), ("v6", 4), ("v3", 3), ("s", 0), ("v7", 4), ("v4", 2),
         ("v1", 1), ("v9", 4), ("v5", 3), ("v2", 2), ("v8", 3)]).length =
      gS1.nodes.length :=
  exec_cstrs_spec gS1
    [("s", 0), ("v1", 1), ("v4", 2), ("v7", 3), ("t", 5), ("v8", 3),
     ("v9", 4), ("v2", 1), ("v5", 2), ("v3", 1), ("v6", 2)]
    [("t", 5), ("v6", 4), ("v3", 3), ("s", 0), ("v7", 4), ("v4", 2),
     ("v1", 1), ("v9", 4), ("v5", 3), ("v2", 2), ("v8", 3)]
    (by decide) rfl (by decide)

theorem foldl_bind_none {α β : Type} (f : β → α → Option α) :
    ∀ cs : List β, cs.foldl (fun acc c => acc.bind (f c)) none = none := by
  intro cs
  induction cs with
  | nil => rfl
  | cons c rest ih => simpa [List.foldl] using ih

theorem dfsList_cons (g : Graph) (fuel : Nat) (c : String) (cs : List String)
    (lv : Int) (st : DfsSt) :
    dfsList g fuel (c :: cs) lv st =
      match dfs g fuel c lv st with
      | none => none
      | some st' => dfsList g fuel cs lv st' := by
  unfold dfsList
  cases h : dfs g fuel c lv st with
  | none =>
    simp only [List.foldl, Option.bind, h]
    exact foldl_bind_none (fun c st2 => dfs g fuel c lv st2) cs
  | some st' => simp only [List.foldl, Option.bind, h]

theorem dfs_succ (g : Graph) (fuel : Nat) (node : String) (level : Int) (st : DfsSt) :
    dfs g (fuel + 1) node level st =
      dfsList g fuel (adjSorted g node)  (level + 1)
        ⟨if (st.times.lookup node).getD (-1) < level + 1 then
            updA st.times node (level + 1) else st.times,
          insS st.seen node⟩ := rfl

theorem dfsRevList_cons (g : Graph) (fuel : Nat) (c : String) (cs : List String)
    (lv : Int) (st : DfsSt) :
    dfsRevList g fuel (c :: cs) lv st =
      match dfs_reverse g fuel c lv st with
      | none => none
      | some st' => dfsRevList g fuel cs lv st' := by
  unfold dfsRevList
  cases h : dfs_reverse g fuel c lv st with
  | none =>
    simp only [List.foldl, Option.bind, h]
    exact foldl_bind_none (fun c st2 => dfs_reverse g fuel c lv st2) cs
  | some st' => simp only [List.foldl, Option.bind, h]

theorem dfs_reverse_succ (g : Graph) (fuel : Nat) (node : String) (level : Int) (st : DfsSt) :
    dfs_reverse g (fuel + 1) node level st =
      dfsRevList g fuel (predSorted g node) (level - 1)
        ⟨match st.times.lookup node with
          | none => updA st.times node (level - 1)
          | some v => if level - 1 < v then updA st.times node (level - 1) else st.times,
          insS st.seen node⟩ := rfl

theorem isCyclicList_true (g : Graph) (fuel : Nat) :
    ∀ (cs : List String) (d : List String),
      cs.foldl (fun acc c => acc.bind (fun bd =>
        if bd.1 then some bd else is_cyclic g fuel c bd.2)) (some (true, d)) =
        some (true, d) := by
  intro cs
  induction cs with
  | nil => intro d; rfl
  | cons c rest ih => intro d; simpa [List.foldl] using ih d

theorem isCyclicList_cons (g : Graph) (fuel : Nat) (c : String) (cs : List String)
    (d : List String) :
    isCyclicList g fuel (c :: cs) d =
      match is_cyclic g fuel c d with
      | none => none
      | some (true, d') => some (true, d')
      | some (false, d') => isCyclicList g fuel cs d' := by
  unfold isCyclicList
  cases h : is_cyclic g fuel c d with
  | none =>
    simp only [List.foldl, Option.bind, h]
    exact foldl_bind_none
      (fun c bd => if bd.1 then some bd else is_cyclic g fuel c bd.2) cs
  | some bd =>
    obtain ⟨b, d'⟩ := bd
    cases b with
    | true =>
      simp only [List.foldl, Option.bind, h]
      exact isCyclicList_true g fuel cs d'
    | false => simp [List.foldl, Option.bind, h, isCyclicList]

theorem is_cyclic_succ (g : Graph) (fuel : Nat) (node : String) (d : List String) :
    is_cyclic g (fuel + 1) node d =
      if node ∈ d then some (true, d)
      else
        match isCyclicList g fuel (adjSorted g node) (node :: d) with
        | none => none
        | some (true, d') => some (true, d')
        | some (false, d') => some (false, d'.erase node) := rfl

/-- C9 (amended): `main`'s objective selection by Python truthiness.  Both
inputs absent exits with the no-constraint message; a *zero* latency with no
area list leaves `schedule_obj` unbound and the dispatch raises `NameError`;
an absent-or-zero latency with an area list selects ML-RC; a nonzero latency
selects MR-LC when the area list is absent, and both objectives (two
independent runs) when it is present. -/
theorem main_select_amended :
    (∀ g : Graph, mainSelect (some g) none none = .constraintExit) ∧
    (∀ g : Graph, mainSelect (some g) (some 0) none = .nameError) ∧
    (∀ (g : Graph) (l : List Int), l ≠ [] →
      mainSelect (some g) none (some l) = .runs ["ML-RC"]) ∧
    (∀ (g : Graph) (l : List Int), l ≠ [] →
      mainSelect (some g) (some 0) (some l) = .runs ["ML-RC"]) ∧
    (∀ (g : Graph) (v : Int), v ≠ 0 →
      mainSelect (some g) (some v) none = .runs ["MR-LC"]) ∧
    (∀ (g : Graph) (v : Int) (l : List Int), v ≠ 0 → l ≠ [] →
      mainSelect (some g) (some v) (some l) = .runs ["ML-RC", "MR-LC"]) := by
  refine ⟨fun g => rfl, fun g => rfl, ?_, ?_, ?_, ?_⟩
  · intro g l hl
    simp [mainSelect, truthyInt, truthyList, List.isEmpty_iff, hl]
  · intro g l hl
    simp [mainSelect, truthyInt, truthyList, List.isEmpty_iff, hl]
  · intro g v hv
    simp [mainSelect, truthyInt, truthyList, hv]
  · intro g v l hv hl
    simp [mainSelect, truthyInt, truthyList, List.isEmpty_iff, hv, hl]

/-- C9 counterexample: with a supplied latency of `0` and no area list, the
claim predicts the MR-LC objective, but the selection chain assigns nothing
and the dispatch crashes with an unbound-variable `NameError`. -/
theorem main_select_counterexample :
    mainSelect (some gChain) (some 0) none = .nameError ∧
    MainRes.nameError ≠ MainRes.runs ["MR-LC"] := ⟨rfl, by decide⟩

/-- Witness for the amended C9 theorem. -/
theorem main_select_amended_witness :
    mainSelect (some gChain) (some 2) (some [1]) = .runs ["ML-RC", "MR-LC"] :=
  main_select_amended.2.2.2.2.2 gChain 2 [1] (by decide) (by decide)

/-- C2 (amended): a *nonzero* user latency below `L_min = ASAP(t) − 1` makes
the run fail with the latency-infeasibility error (and the error precedes all
LP generation, so no lines are produced); an absent *or zero* latency makes
the run fall back to `L_min` itself. -/
theorem latency_infeasible_amended :
    (∀ Lmin : Int, latencyStep none Lmin = .ok Lmin ∧
      latencyStep (some 0) Lmin = .ok Lmin) ∧
    (∀ (l Lmin : Int), l ≠ 0 → l < Lmin →
      latencyStep (some l) Lmin =
        .error "Solution not posible, given latency constraint is too small.") ∧
    (∀ (schedule_obj : String) (g : Graph) (l : Int) (area_cost : Option (List Int))
      (fuel : Nat) (asap : List (String × Int)) (vt : Int),
      cycleCheck g fuel = some false →
      ¬(truthyList area_cost ∧
        (((get_node_unit_cost g).2).length : Int) - 2 ≠
          (((area_cost.getD []).length : Int))) →
      get_asap g fuel = some (.ok asap) →
      asap.lookup g.sink = some vt →
      l ≠ 0 → l < vt - 1 →
      run_scheduler schedule_obj g (some l) area_cost fuel =
        some (.error "Solution not posible, given latency constraint is too small.")) := by
  refine ⟨?_, ?_, ?_⟩
  · intro Lmin
    constructor <;> simp [latencyStep, truthyInt]
  · intro l Lmin hl hlt
    simp [latencyStep, truthyInt, hl, hlt]
  · intro schedule_obj g l area_cost fuel asap vt hcyc harea hasap hvt hl hlt
    unfold run_scheduler
    rw [hcyc]
    dsimp only
    rw [if_neg harea, hasap]
    dsimp only
    rw [hvt]
    dsimp only
    rw [show latencyStep (some l) (vt - 1) =
        .error "Solution not posible, given latency constraint is too small." by
      simp [latencyStep, truthyInt, hl, hlt]]

/-- C2 counterexample: `gChain` has `L_min = 1`; a supplied latency of `0` is
falsy, so instead of failing the run silently falls back to `L_min` and
produces a complete LP file. -/
theorem latency_claim_counterexample :
    get_asap gChain 10 = some (.ok [("s", 0), ("a", 1), ("t", 2)]) ∧
    (0 : Int) < 1 ∧
    run_scheduler "ML-RC" gChain (some 0) (some [1]) 10 =
      some (.ok ["Minimize", "  ", "Subject To", "  e0: x_0_0 = 1",
        "  e1: x_1_1 = 1", "  e2: x_n_2 = 1", "  r0: x_1_1 <= 1",
        "Integer", "  ", "End"]) :=
  ⟨rfl, by decide, rfl⟩

/-- Witness for the amended C2 theorem at `gChain` with latency `-1`. -/
theorem latency_infeasible_amended_witness :
    run_scheduler "MR-LC" gChain (some (-1)) none 10 =
      some (.error "Solution not posible, given latency constraint is too small.") :=
  latency_infeasible_amended.2.2 "MR-LC" gChain (-1) none 10
    [("s", 0), ("a", 1), ("t", 2)] 2 rfl (by decide) rfl rfl (by decide) (by decide)

theorem minFuncLoop_eq (s t : String) (asap alap : List (String × Int)) :
    ∀ (l : List String) (k : Nat),
    (∀ node ∈ l, (asap.lookup node).isSome ∧ (alap.lookup node).isSome) →
    minFuncLoop s t asap alap k l = .ok
      ((List.enumFrom k l).flatMap (fun p =>
        if (asap.lookup p.2).getD 0 = (alap.lookup p.2).getD 0 then []
        else (intRange ((asap.lookup p.2).getD 0) ((alap.lookup p.2).getD 0)).map
          (fun time => toString time ++ "x_" ++
            (if p.2 = t then "n" else toString p.1) ++ "_" ++ toString time)),
       (List.enumFrom k l).flatMap (fun p =>
        if (asap.lookup p.2).getD 0 = (alap.lookup p.2).getD 0 then []
        else (intRange ((asap.lookup p.2).getD 0) ((alap.lookup p.2).getD 0)).map
          (fun time => "x_" ++ (if p.2 = t then "n" else toString p.1) ++ "_" ++
            toString time)),
       l.filter (fun node =>
        (asap.lookup node).getD 0 = (alap.lookup node).getD 0 ∧ node ≠ s ∧ node ≠ t)) := by
  intro l
  induction l with
  | nil => intro k _; simp [minFuncLoop]
  | cons node rest ih =>
    intro k hdef
    obtain ⟨⟨va, ha⟩, vb, hb⟩ :
        (∃ va, asap.lookup node = some va) ∧ ∃ vb, alap.lookup node = some vb := by
      obtain ⟨h1, h2⟩ := hdef node (by simp)
      exact ⟨Option.isSome_iff_exists.mp h1, Option.isSome_iff_exists.mp h2⟩
    have hrest := fun n hn => hdef n (List.mem_cons_of_mem _ hn)
    simp only [minFuncLoop, ha, hb]
    rw [ih (k + 1) hrest]
    dsimp only
    by_cases hcrit : va = vb
    · by_cases hns : node = s
      · rw [if_pos hcrit, if_neg (fun hh => hh.1 hns)]
        simp [List.enumFrom_cons, ha, hb, hns ▸ ha, hns ▸ hb, hcrit, hns]
      · by_cases hnt : node = t
        · rw [if_pos hcrit, if_neg (fun hh => hh.2 hnt)]
          simp [List.enumFrom_cons, ha, hb, hnt ▸ ha, hnt ▸ hb, hcrit, hnt]
        · rw [if_pos hcrit, if_pos (And.intro hns hnt)]
          simp [List.enumFrom_cons, ha, hb, hcrit, hns, hnt]
    · rw [if_neg hcrit]
      simp [List.enumFrom_cons, ha, hb, hcrit]

/-- C6 (amended): the MR-LC objective has exactly one `a_u` term per interior
unit (units other than the smallest and largest id), each with its cost as
coefficient.  The ML-RC objective has exactly one `t·x_<id>_t` term per pair
of a node with a *nontrivial window* — including the source and the sink
whenever the effective latency exceeds `L_min` and gives them slack — and a
step `t` of that window; interior critical-path nodes are omitted from the
objective and recorded, in canonical order, in the `crit_path_nodes` side
list (a critical source or sink is omitted from both). -/
theorem min_func_amended (g : Graph) (asap alap : List (String × Int))
    (unit_cost : List (Nat × Int)) (hwf : g.Wf)
    (hdef : ∀ node ∈ g.nodes, (asap.lookup node).isSome ∧ (alap.lookup node).isSome) :
    generate_min_func "ML-RC" g asap alap unit_cost =
      .ok (["  " ++ String.intercalate " + " (mlrcObjTerms g asap alap)],
        mlrcIntSet g asap alap, mlrcCrit g asap alap) ∧
    generate_min_func "MR-LC" g asap alap unit_cost =
      .ok (["  " ++ String.intercalate " + " (((unit_cost.drop 1).dropLast).map
        (fun uc => toString uc.2 ++ "a" ++ toString uc.1))], [], []) ∧
    (((unit_cost.drop 1).dropLast).map
      (fun uc => toString uc.2 ++ "a" ++ toString uc.1)).length =
      unit_cost.length - 2 := by
  refine ⟨?_, rfl, ?_⟩
  · unfold generate_min_func
    rw [if_pos rfl]
    rw [minFuncLoop_eq g.source g.sink asap alap (get_nodes g) 0
      (fun n hn => hdef n ((mem_get_nodes hwf).mp hn))]
    rfl
  · rw [List.length_map, List.length_dropLast, List.length_drop]
    omega

/-- C6 counterexample: running ML-RC on `gChain` with the user latency 2
(the "both" path; `L_min = 1`) gives the source and sink slack, and the
emitted objective has six `t·x` terms — among them `0x_0_0` for the source
and `3x_n_3` for the sink — while the pairs (non-critical *interior* node,
window step) number only two. -/
theorem min_func_claim_counterexample :
    get_asap gChain 10 = some (.ok [("s", 0), ("a", 1), ("t", 2)]) ∧
    get_alap gChain 2 10 = some (.ok [("t", 3), ("a", 2), ("s", 1)]) ∧
    generate_min_func "ML-RC" gChain [("s", 0), ("a", 1), ("t", 2)]
      [("t", 3), ("a", 2), ("s", 1)] (get_node_unit_cost gChain).2 =
      .ok (["  0x_0_0 + 1x_0_1 + 1x_1_1 + 2x_1_2 + 2x_n_2 + 3x_n_3"],
        ["x_0_0", "x_0_1", "x_1_1", "x_1_2", "x_n_2", "x_n_3"], []) ∧
    (["x_0_0", "x_0_1", "x_1_1", "x_1_2", "x_n_2", "x_n_3"] : List String).length = 6 ∧
    (((get_nodes gChain).filter (fun v => v ≠ gChain.source ∧ v ≠ gChain.sink ∧
        slackOf [("s", 0), ("a", 1), ("t", 2)] [("t", 3), ("a", 2), ("s", 1)] v ≠ 0)).flatMap
      (fun v => intRange
        ((([("s", 0), ("a", 1), ("t", 2)] : List (String × Int)).lookup v).getD 0)
        ((([("t", 3), ("a", 2), ("s", 1)] : List (String × Int)).lookup v).getD 0))).length = 2 ∧
    (6 : Nat) ≠ 2 :=
  ⟨rfl, rfl, rfl, rfl, rfl, by decide⟩

/-- Witness for the amended C6 theorem at the `gChain` instance. -/
theorem min_func_amended_witness :
    generate_min_func "ML-RC" gChain [("s", 0), ("a", 1), ("t", 2)]
      [("t", 3), ("a", 2), ("s", 1)] (get_node_unit_cost gChain).2 =
      .ok (["  " ++ String.intercalate " + "
          (mlrcObjTerms gChain [("s", 0), ("a", 1), ("t", 2)] [("t", 3), ("a", 2), ("s", 1)])],
        mlrcIntSet gChain [("s", 0), ("a", 1), ("t", 2)] [("t", 3), ("a", 2), ("s", 1)],
        mlrcCrit gChain [("s", 0), ("a", 1), ("t", 2)] [("t", 3), ("a", 2), ("s", 1)]) :=
  (min_func_amended gChain [("s", 0), ("a", 1), ("t", 2)] [("t", 3), ("a", 2), ("s", 1)]
    (get_node_unit_cost gChain).2 (by decide) (by decide)).1

theorem rsrcCandidates_eq (asap alap : List (String × Int)) (time : Int) :
    ∀ l : List String,
    (∀ node ∈ l, (asap.lookup node).isSome ∧ (alap.lookup node).isSome) →
    rsrcCandidates asap alap time l = .ok (l.filter (windowHas asap alap time)) := by
  intro l
  induction l with
  | nil => intro _; rfl
  | cons node rest ih =>
    intro hdef
    obtain ⟨⟨va, ha⟩, vb, hb⟩ :
        (∃ va, asap.lookup node = some va) ∧ ∃ vb, alap.lookup node = some vb := by
      obtain ⟨h1, h2⟩ := hdef node (by simp)
      exact ⟨Option.isSome_iff_exists.mp h1, Option.isSome_iff_exists.mp h2⟩
    simp only [rsrcCandidates, ha, hb]
    rw [ih (fun n hn => hdef n (List.mem_cons_of_mem _ hn))]
    simp only [Except.map, List.filter_cons, windowHas, ha, hb, Option.getD_some]
    by_cases hc : va ≤ time ∧ time ≤ vb
    · rw [if_pos hc, if_pos (by simp [hc.1, hc.2])]
    · rw [if_neg hc, if_neg (by
        intro hcc
        obtain ⟨h1, h2⟩ := Bool.and_eq_true .. ▸ hcc
        exact hc ⟨by simpa using h1, by simpa using h2⟩)]

theorem rsrcTimeLoop_eq (g : Graph) (asap alap : List (String × Int))
    (nodes_unit : List String) (lineEnd : String)
    (hdef : ∀ node ∈ nodes_unit, (asap.lookup node).isSome ∧ (alap.lookup node).isSome) :
    ∀ (times : List Int) (k : Nat),
    rsrcTimeLoop g asap alap nodes_unit lineEnd k times =
      .ok (renderIdx "r" k (times.filterMap (fun time =>
          let cands := nodes_unit.filter (windowHas asap alap time)
          if cands.isEmpty then none
          else some (String.intercalate " + " (cands.map
            (fun node => "x_" ++ toString ((get_nodes g).indexOf node) ++ "_" ++
              toString time)) ++ lineEnd))),
        k + (times.filterMap (fun time =>
          let cands := nodes_unit.filter (windowHas asap alap time)
          if cands.isEmpty then none
          else some (String.intercalate " + " (cands.map
            (fun node => "x_" ++ toString ((get_nodes g).indexOf node) ++ "_" ++
              toString time)) ++ lineEnd))).length) := by
  intro times
  induction times with
  | nil => intro k; simp [rsrcTimeLoop, renderIdx]
  | cons time rest ih =>
    intro k
    simp only [rsrcTimeLoop, rsrcCandidates_eq asap alap time nodes_unit hdef]
    by_cases hempty : (nodes_unit.filter (windowHas asap alap time)).isEmpty
    · rw [if_pos hempty, ih k]
      simp only [List.filterMap_cons]
      rw [if_pos hempty]
    · rw [if_neg hempty, ih (k + 1)]
      simp only [List.filterMap_cons]
      rw [if_neg hempty]
      simp only [renderIdx, List.length_cons, Except.ok.injEq, Prod.mk.injEq]
      refine ⟨by trivial, by omega⟩

theorem rsrcUnitLoop_eq (schedule_obj : String) (g : Graph)
    (node_unit : List (String × Nat)) (unit_count : Option (List Int))
    (asap alap : List (String × Int)) (tEnd : Int)
    (halap : alap.lookup "t" = some tEnd)
    (hdefn : ∀ p ∈ node_unit, (asap.lookup p.1).isSome ∧ (alap.lookup p.1).isSome) :
    ∀ (units : List (Nat × Int)) (k : Nat),
    (∀ uc ∈ units, ∃ e, rsrcLineEnd schedule_obj unit_count uc.1 = .ok e) →
    rsrcUnitLoop schedule_obj g node_unit unit_count asap alap k units =
      .ok (renderIdx "r" k (units.flatMap (fun uc =>
        (intRange 1 (tEnd - 1)).filterMap (fun time =>
          let cands := ((node_unit.filter (fun p => p.2 == uc.1)).map
            (fun p => p.1)).filter (windowHas asap alap time)
          if cands.isEmpty then none
          else some (String.intercalate " + " (cands.map
            (fun node => "x_" ++ toString ((get_nodes g).indexOf node) ++ "_" ++
              toString time)) ++
            ((rsrcLineEnd schedule_obj unit_count uc.1).toOption).getD ""))))) := by
  intro units
  induction units with
  | nil => intro k _; simp [rsrcUnitLoop, renderIdx]
  | cons uc rest ih =>
    intro k hok
    obtain ⟨e, he⟩ := hok uc (by simp)
    have hdefu : ∀ node ∈ (node_unit.filter (fun p => p.2 == uc.1)).map (fun p => p.1),
        (asap.lookup node).isSome ∧ (alap.lookup node).isSome := by
      intro node hn
      obtain ⟨p, hp, rfl⟩ := List.mem_map.mp hn
      exact hdefn p (List.mem_of_mem_filter hp)
    obtain ⟨u, c⟩ := uc
    simp only [rsrcUnitLoop, he, halap]
    rw [rsrcTimeLoop_eq g asap alap _ e hdefu (intRange 1 (tEnd - 1)) k]
    dsimp only
    rw [ih _ (fun x hx => hok x (List.mem_cons_of_mem _ hx))]
    simp only [Except.map, List.flatMap_cons, Except.ok.injEq]
    rw [renderIdx_append]
    rw [show ((rsrcLineEnd schedule_obj unit_count u).toOption).getD "" = e by
      rw [he]; rfl]

/-- C5: with the unit tables computed from the graph, a mobility map defined
on every listed node, the `'t'` entry of the ALAP map holding `L + 1`, and a
well-defined subtrahend for every interior unit, the resource constraints are
exactly `rsrcRef`: the interior units (all but the first and last entry of
the unit table, which is sorted ascending by unit id — see the `Pairwise`
conjunct) are scanned in order; within a unit the steps `t ∈ [1, L]` ascend;
a step with at least one candidate node yields exactly one constraint
`r<k>` (`k` counting emissions from 0) summing `x_<id>_t` over the
candidates, with tail `" - a<u> <= 0"` under MR-LC and `" <= count_u"`
(positional lookup `unit_count[u - 1]`) under ML-RC; a step with no
candidates yields nothing. -/
theorem rsrc_cstrs_spec (schedule_obj : String) (g : Graph)
    (unit_count : Option (List Int)) (asap alap : List (String × Int)) (tEnd : Int)
    (halap : alap.lookup "t" = some tEnd)
    (hdefn : ∀ p ∈ (get_node_unit_cost g).1,
      (asap.lookup p.1).isSome ∧ (alap.lookup p.1).isSome)
    (hok : ∀ uc ∈ (((get_node_unit_cost g).2).drop 1).dropLast,
      ∃ e, rsrcLineEnd schedule_obj unit_count uc.1 = .ok e) :
    generate_rsrc_cstrs schedule_obj g (get_node_unit_cost g).2 (get_node_unit_cost g).1
        unit_count asap alap =
      .ok (rsrcRef schedule_obj g (get_node_unit_cost g).2 (get_node_unit_cost g).1
        unit_count asap alap) ∧
    List.Pairwise (fun a b : Nat × Int => a.1 ≤ b.1) ((get_node_unit_cost g).2) := by
  constructor
  · unfold generate_rsrc_cstrs rsrcRef rsrcBodies
    rw [rsrcUnitLoop_eq schedule_obj g (get_node_unit_cost g).1 unit_count asap alap
      tEnd halap hdefn _ 0 hok]
    simp only [halap, Option.getD_some]
  · unfold get_node_unit_cost
    haveI : IsTotal (Nat × Int) (fun a b => a.1 ≤ b.1) := ⟨fun a b => Nat.le_total a.1 b.1⟩
    haveI : IsTrans (Nat × Int) (fun a b => a.1 ≤ b.1) :=
      ⟨fun _ _ _ h1 h2 => Nat.le_trans h1 h2⟩
    exact List.sorted_insertionSort _ _

/-- Witness for the C5 theorem at the canonical fixture under MR-LC. -/
theorem rsrc_cstrs_spec_witness :
    generate_rsrc_cstrs "MR-LC" gS1 (get_node_unit_cost gS1).2 (get_node_unit_cost gS1).1
        none
        [("s", 0), ("v1", 1), ("v4", 2), ("v7", 3), ("t", 5), ("v8", 3),
         ("v9", 4), ("v2", 1), ("v5", 2), ("v3", 1), ("v6", 2)]
        [("t", 5), ("v6", 4), ("v3", 3), ("s", 0), ("v7", 4), ("v4", 2),
         ("v1", 1), ("v9", 4), ("v5", 3), ("v2", 2), ("v8", 3)] =
      .ok (rsrcRef "MR-LC" gS1 (get_node_unit_cost gS1).2 (get_node_unit_cost gS1).1
        none
        [("s", 0), ("v1", 1), ("v4", 2), ("v7", 3), ("t", 5), ("v8", 3),
         ("v9", 4), ("v2", 1), ("v5", 2), ("v3", 1), ("v6", 2)]
        [("t", 5), ("v6", 4), ("v3", 3), ("s", 0), ("v7", 4), ("v4", 2),
         ("v1", 1), ("v9", 4), ("v5", 3), ("v2", 2), ("v8", 3)]) ∧
    List.Pairwise (fun a b : Nat × Int => a.1 ≤ b.1) ((get_node_unit_cost gS1).2) :=
  rsrc_cstrs_spec "MR-LC" gS1 none
    [("s", 0), ("v1", 1), ("v4", 2), ("v7", 3), ("t", 5), ("v8", 3),
     ("v9", 4), ("v2", 1), ("v5", 2), ("v3", 1), ("v6", 2)]
    [("t", 5), ("v6", 4), ("v3", 3), ("s", 0), ("v7", 4), ("v4", 2),
     ("v1", 1), ("v9", 4), ("v5", 3), ("v2", 2), ("v8", 3)] 5 rfl (by decide)
    (fun uc _ => ⟨" - a" ++ toString uc.1 ++ " <= 0", rfl⟩)

theorem digitChar_ne_n (n : Nat) : Nat.digitChar n ≠ 'n' := by
  rcases Nat.lt_or_ge n 16 with h | h
  · interval_cases n <;> decide
  · unfold Nat.digitChar
    repeat rw [if_neg (by omega)]
    decide

theorem toDigitsCore_ne_n (b : Nat) :
    ∀ (fuel n : Nat) (acc : List Char), (∀ c ∈ acc, c ≠ 'n') →
      ∀ c ∈ Nat.toDigitsCore b fuel n acc, c ≠ 'n' := by
  intro fuel
  induction fuel with
  | zero => intro n acc hacc c hc; exact hacc c hc
  | succ fuel ih =>
    intro n acc hacc c hc
    simp only [Nat.toDigitsCore] at hc
    by_cases h : n / b = 0
    · rw [if_pos h] at hc
      rcases List.mem_cons.mp hc with rfl | hmem
      · exact digitChar_ne_n _
      · exact hacc c hmem
    · rw [if_neg h] at hc
      refine ih (n / b) (Nat.digitChar (n % b) :: acc) ?_ c hc
      intro c' hc'
      rcases List.mem_cons.mp hc' with rfl | hmem
      · exact digitChar_ne_n _
      · exact hacc c' hmem

theorem toString_nat_ne_n (k : Nat) : toString k ≠ "n" := by
  intro h
  have hs : Nat.repr k = "n" := h
  unfold Nat.repr at hs
  have hdata : Nat.toDigits 10 k = ['n'] := by
    have := congrArg String.data hs
    simpa [List.asString] using this
  exact toDigitsCore_ne_n 10 (k + 1) k [] (by simp) 'n'
    (by rw [Nat.toDigits] at hdata; rw [hdata]; simp) rfl

theorem lookup_updA_isSome_iff (l : List (String × Int)) (k m : String) (v : Int) :
    ((updA l k v).lookup m).isSome ↔ m = k ∨ (l.lookup m).isSome := by
  by_cases h : m = k
  · subst h
    rw [lookup_updA_self]
    simp
  · rw [lookup_updA_ne l k m v h]
    simp [h]

theorem dfsRev_keys_aux (g : Graph)
    (hcl : ∀ e ∈ g.edges, e.src ∈ g.nodes ∧ e.dst ∈ g.nodes) :
    ∀ fuel : Nat,
      (∀ (node : String) (lv : Int) (st st' : DfsSt), node ∈ g.nodes →
        dfs_reverse g fuel node lv st = some st' →
        ∀ m, (st'.times.lookup m).isSome → (st.times.lookup m).isSome ∨ m ∈ g.nodes) ∧
      (∀ (cs : List String) (lv : Int) (st st' : DfsSt), (∀ c ∈ cs, c ∈ g.nodes) →
        dfsRevList g fuel cs lv st = some st' →
        ∀ m, (st'.times.lookup m).isSome → (st.times.lookup m).isSome ∨ m ∈ g.nodes) := by
  intro fuel
  induction fuel with
  | zero =>
    constructor
    · intro node lv st st' _ heq
      simp [dfs_reverse] at heq
    · intro cs
      induction cs with
      | nil =>
        intro lv st st' _ heq m hm
        obtain rfl : st = st' := by simpa [dfsRevList, List.foldl] using heq
        exact Or.inl hm
      | cons c rest ihc =>
        intro lv st st' _ heq
        rw [dfsRevList_cons] at heq
        simp [dfs_reverse] at heq
  | succ fuel ih =>
    have hF : ∀ (node : String) (lv : Int) (st st' : DfsSt), node ∈ g.nodes →
        dfs_reverse g (fuel + 1) node lv st = some st' →
        ∀ m, (st'.times.lookup m).isSome → (st.times.lookup m).isSome ∨ m ∈ g.nodes := by
      intro node lv st st' hnode heq m hm
      rw [dfs_reverse_succ] at heq
      have hpred : ∀ c ∈ predSorted g node, c ∈ g.nodes := by
        intro c hc
        exact (edgeP_mem hcl (mem_predSorted.mp hc)).1
      have := ih.2 (predSorted g node) (lv - 1) _ st' hpred heq m hm
      rcases this with hst1 | hmem
      · cases hlk : st.times.lookup node with
        | none =>
          rw [hlk] at hst1
          dsimp only at hst1
          rcases (lookup_updA_isSome_iff st.times node m (lv - 1)).mp hst1 with rfl | hsome
          · exact Or.inr hnode
          · exact Or.inl hsome
        | some v =>
          rw [hlk] at hst1
          dsimp only at hst1
          by_cases hlt : lv - 1 < v
          · rw [if_pos hlt] at hst1
            rcases (lookup_updA_isSome_iff st.times node m (lv - 1)).mp hst1 with rfl | hsome
            · exact Or.inr hnode
            · exact Or.inl hsome
          · rw [if_neg hlt] at hst1
            exact Or.inl hst1
      · exact Or.inr hmem
    refine ⟨hF, ?_⟩
    intro cs
    induction cs with
    | nil =>
      intro lv st st' _ heq m hm
      obtain rfl : st = st' := by simpa [dfsRevList, List.foldl] using heq
      exact Or.inl hm
    | cons c rest ihc =>
      intro lv st st' hmem heq m hm
      rw [dfsRevList_cons] at heq
      cases hstep : dfs_reverse g (fuel + 1) c lv st with
      | none => rw [hstep] at heq; simp at heq
      | some st1 =>
        rw [hstep] at heq
        dsimp only at heq
        have h2 := ihc lv st1 st' (fun x hx => hmem x (List.mem_cons_of_mem _ hx)) heq m hm
        rcases h2 with h2 | h2
        · exact hF c lv st st1 (hmem c (by simp)) hstep m h2
        · exact Or.inr h2

/-- C10 (amended): for a validated graph having no node labelled `"t"`:
the ALAP map produced by the pipeline has no `"t"` key, so resource
generation — which reads `unit_times_alap['t']` inside its per-unit loop —
raises a `KeyError` *provided at least one interior unit exists* (with no
interior unit the loop body never runs and generation succeeds); and the
subscript chosen by execution/dependency generation, which compares the
node's label against the literal `"t"` rather than identifying the sink
positionally, is always the numeric enumeration index and never `n`. -/
theorem sink_literal_amended (g : Graph) (hwf : g.Wf)
    (hnot : ∀ n ∈ g.nodes, n ≠ "t") :
    (∀ (L : Int) (fuel : Nat) (alap : List (String × Int)),
      get_alap g L fuel = some (.ok alap) → alap.lookup "t" = none) ∧
    (∀ (unit_cost : List (Nat × Int)) (node_unit : List (String × Nat))
       (asap alap : List (String × Int)),
      alap.lookup "t" = none → 3 ≤ unit_cost.length →
      generate_rsrc_cstrs "MR-LC" g unit_cost node_unit none asap alap =
        .error "KeyError") ∧
    (∀ (idx : Nat) (node : String), node ∈ get_nodes g →
      execId idx node = toString idx ∧ execId idx node ≠ "n") := by
  refine ⟨?_, ?_, ?_⟩
  · intro L fuel alap heq
    unfold get_alap at heq
    by_cases hpe : (predSorted g g.sink).isEmpty
    · rw [if_pos hpe] at heq
      simp at heq
    · rw [if_neg hpe] at heq
      cases hrun : dfsRevList g fuel (predSorted g g.sink) (L + 1)
          ⟨[(g.sink, L + 1)], [g.sink]⟩ with
      | none => rw [hrun] at heq; simp at heq
      | some st =>
        rw [hrun] at heq
        dsimp only at heq
        by_cases hlen : g.nodes.length ≠ st.seen.length
        · rw [if_pos hlen] at heq; simp at heq
        · rw [if_neg hlen] at heq
          obtain rfl : st.times = alap := by simpa using heq
          rw [Option.eq_none_iff_forall_not_mem]
          intro v hv
          have hsome : (st.times.lookup "t").isSome := by
            rw [Option.mem_def.mp hv]; rfl
          have hsub : ∀ c ∈ predSorted g g.sink, c ∈ g.nodes := by
            intro c hc
            exact (edgeP_mem hwf.2.2.1 (mem_predSorted.mp hc)).1
          have := (dfsRev_keys_aux g hwf.2.2.1 fuel).2 (predSorted g g.sink)
            (L + 1) ⟨[(g.sink, L + 1)], [g.sink]⟩ st hsub hrun "t" hsome
          rcases this with hinit | hmem
          · have : "t" = g.sink := by
              by_contra hne
              rw [show (List.lookup "t" [(g.sink, L + 1)]) = none by
                simp [List.lookup_cons, beq_false_of_ne hne]] at hinit
              simp at hinit
            exact hnot g.sink (sink_mem hwf.2.1) this.symm
          · exact hnot "t" hmem rfl
  · intro unit_cost node_unit asap alap halap hlen
    unfold generate_rsrc_cstrs
    match hl : (unit_cost.drop 1).dropLast with
    | [] =>
      exfalso
      have := congrArg List.length hl
      simp only [List.length_dropLast, List.length_drop, List.length_nil] at this
      omega
    | uc :: rest =>
      obtain ⟨u, c⟩ := uc
      simp only [rsrcUnitLoop]
      rw [show rsrcLineEnd "MR-LC" none u = .ok (" - a" ++ toString u ++ " <= 0") from rfl]
      dsimp only
      rw [halap]
  · intro idx node hmem
    have hne : node ≠ "t" := hnot node ((mem_get_nodes hwf).mp hmem)
    refine ⟨by unfold execId; rw [if_neg hne], ?_⟩
    unfold execId
    rw [if_neg hne]
    exact toString_nat_ne_n idx

/-- C10 counterexample: `gNoT` has no node labelled `t` *and no interior
unit*; the resource loop body never executes, so generation returns
successfully instead of raising the lookup error the claim predicts for
every graph without a `t` label. -/
theorem sink_literal_claim_counterexample :
    (∀ n ∈ gNoT.nodes, n ≠ "t") ∧
    get_asap gNoT 10 = some (.ok [("s", 0), ("z", 1)]) ∧
    get_alap gNoT 5 10 = some (.ok [("z", 6), ("s", 5)]) ∧
    generate_rsrc_cstrs "MR-LC" gNoT (get_node_unit_cost gNoT).2
      (get_node_unit_cost gNoT).1 none [("s", 0), ("z", 1)] [("z", 6), ("s", 5)] =
      .ok [] ∧
    (∀ e : String, (.ok [] : Except String (List String)) ≠ .error e) :=
  ⟨by decide, rfl, rfl, rfl, fun e h => by simp at h⟩

/-- Witness for the amended C10 theorem at `gNoT3` (one interior unit). -/
theorem sink_literal_amended_witness :
    generate_rsrc_cstrs "MR-LC" gNoT3 (get_node_unit_cost gNoT3).2
      (get_node_unit_cost gNoT3).1 none [("s", 0), ("b", 1), ("z", 2)]
      [("z", 3), ("b", 2), ("s", 1)] = .error "KeyError" :=
  (sink_literal_amended gNoT3 (by decide) (by decide)).2.1
    (get_node_unit_cost gNoT3).2 (get_node_unit_cost gNoT3).1
    [("s", 0), ("b", 1), ("z", 2)] [("z", 3), ("b", 2), ("s", 1)] rfl (by decide)

theorem dfs_mono_aux (g : Graph) : ∀ fuel : Nat,
    (∀ (node : String) (lv : Int) (st st' : DfsSt), dfs g fuel node lv st = some st' →
      ∀ m v, st.times.lookup m = some v →
        ∃ v', st'.times.lookup m = some v' ∧ v ≤ v') ∧
    (∀ (cs : List String) (lv : Int) (st st' : DfsSt), dfsList g fuel cs lv st = some st' →
      ∀ m v, st.times.lookup m = some v →
        ∃ v', st'.times.lookup m = some v' ∧ v ≤ v') := by
  intro fuel
  induction fuel with
  | zero =>
    constructor
    · intro node lv st st' heq
      simp [dfs] at heq
    · intro cs
      induction cs with
      | nil =>
        intro lv st st' heq m v hv
        obtain rfl : st = st' := by simpa [dfsList, List.foldl] using heq
        exact ⟨v, hv, le_refl v⟩
      | cons c rest ihc =>
        intro lv st st' heq
        rw [dfsList_cons] at heq
        simp [dfs] at heq
  | succ fuel ih =>
    have hF : ∀ (node : String) (lv : Int) (st st' : DfsSt),
        dfs g (fuel + 1) node lv st = some st' →
        ∀ m v, st.times.lookup m = some v →
          ∃ v', st'.times.lookup m = some v' ∧ v ≤ v' := by
      intro node lv st st' heq m v hv
      rw [dfs_succ] at heq
      by_cases hupd : (st.times.lookup node).getD (-1) < lv + 1
      · rw [if_pos hupd] at heq
        by_cases hm : m = node
        · subst hm
          have hnl : (st.times.lookup m).getD (-1) = v := by rw [hv]; rfl
          rw [hnl] at hupd
          have h1 : (updA st.times m (lv + 1)).lookup m = some (lv + 1) :=
            lookup_updA_self st.times m (lv + 1)
          obtain ⟨v', hv', hle⟩ := ih.2 (adjSorted g m) (lv + 1) _ st' heq m (lv + 1) h1
          exact ⟨v', hv', by omega⟩
        · have h1 : (updA st.times node (lv + 1)).lookup m = some v := by
            rw [lookup_updA_ne st.times node m (lv + 1) hm]; exact hv
          exact ih.2 (adjSorted g node) (lv + 1) _ st' heq m v h1
      · rw [if_neg hupd] at heq
        exact ih.2 (adjSorted g node) (lv + 1) _ st' heq m v hv
    refine ⟨hF, ?_⟩
    intro cs
    induction cs with
    | nil =>
      intro lv st st' heq m v hv
      obtain rfl : st = st' := by simpa [dfsList, List.foldl] using heq
      exact ⟨v, hv, le_refl v⟩
    | cons c rest ihc =>
      intro lv st st' heq m v hv
      rw [dfsList_cons] at heq
      cases hstep : dfs g (fuel + 1) c lv st with
      | none => rw [hstep] at heq; simp at heq
      | some st1 =>
        rw [hstep] at heq
        dsimp only at heq
        obtain ⟨v1, hv1, hle1⟩ := hF c lv st st1 hstep m v hv
        obtain ⟨v2, hv2, hle2⟩ := ihc lv st1 st' heq m v1 hv1
        exact ⟨v2, hv2, le_trans hle1 hle2⟩

theorem dfs_fuel_aux (g : Graph) : ∀ fuel : Nat,
    (∀ (node : String) (lv : Int) (st st' : DfsSt), dfs g fuel node lv st = some st' →
      ∀ m k, WalkTo g node m k → k < fuel) ∧
    (∀ (cs : List String) (lv : Int) (st st' : DfsSt), dfsList g fuel cs lv st = some st' →
      ∀ c ∈ cs, ∀ m k, WalkTo g c m k → k < fuel) := by
  intro fuel
  induction fuel with
  | zero =>
    constructor
    · intro node lv st st' heq
      simp [dfs] at heq
    · intro cs
      induction cs with
      | nil => intro lv st st' heq c hc; simp at hc
      | cons c rest ihc =>
        intro lv st st' heq
        rw [dfsList_cons] at heq
        simp [dfs] at heq
  | succ fuel ih =>
    have hF : ∀ (node : String) (lv : Int) (st st' : DfsSt),
        dfs g (fuel + 1) node lv st = some st' → ∀ m k, WalkTo g node m k → k < fuel + 1 := by
      intro node lv st st' heq m k hwalk
      rw [dfs_succ] at heq
      cases hwalk with
      | nil => omega
      | cons e w =>
        rename_i b j
        have hb : b ∈ adjSorted g node := mem_adjSorted.mpr e
        have := ih.2 (adjSorted g node) (lv + 1) _ st' heq b hb m j w
        omega
    refine ⟨hF, ?_⟩
    intro cs
    induction cs with
    | nil => intro lv st st' heq c hc; simp at hc
    | cons c rest ihc =>
      intro lv st st' heq c' hc' m k hwalk
      rw [dfsList_cons] at heq
      cases hstep : dfs g (fuel + 1) c lv st with
      | none => rw [hstep] at heq; simp at heq
      | some st1 =>
        rw [hstep] at heq
        dsimp only at heq
        rcases List.mem_cons.mp hc' with rfl | hrest
        · exact hF c' lv st st1 hstep m k hwalk
        · exact ihc lv st1 st' heq c' hrest m k hwalk

theorem dfs_sound_aux (g : Graph) : ∀ fuel : Nat,
    (∀ (node : String) (lv : Int) (st st' : DfsSt), dfs g fuel node lv st = some st' →
      ∀ m v, st'.times.lookup m = some v →
        st.times.lookup m = some v ∨ ∃ k : Nat, WalkTo g node m k ∧ v = lv + 1 + k) ∧
    (∀ (cs : List String) (lv : Int) (st st' : DfsSt), dfsList g fuel cs lv st = some st' →
      ∀ m v, st'.times.lookup m = some v →
        st.times.lookup m = some v ∨
          ∃ c ∈ cs, ∃ k : Nat, WalkTo g c m k ∧ v = lv + 1 + k) := by
  intro fuel
  induction fuel with
  | zero =>
    constructor
    · intro node lv st st' heq
      simp [dfs] at heq
    · intro cs
      induction cs with
      | nil =>
        intro lv st st' heq m v hv
        obtain rfl : st = st' := by simpa [dfsList, List.foldl] using heq
        exact Or.inl hv
      | cons c rest ihc =>
        intro lv st st' heq
        rw [dfsList_cons] at heq
        simp [dfs] at heq
  | succ fuel ih =>
    have hF : ∀ (node : String) (lv : Int) (st st' : DfsSt),
        dfs g (fuel + 1) node lv st = some st' →
        ∀ m v, st'.times.lookup m = some v →
          st.times.lookup m = some v ∨
            ∃ k : Nat, WalkTo g node m k ∧ v = lv + 1 + k := by
      intro node lv st st' heq m v hv
      rw [dfs_succ] at heq
      rcases ih.2 (adjSorted g node) (lv + 1) _ st' heq m v hv with h1 | ⟨c, hc, k, hw, hval⟩
      · by_cases hupd : (st.times.lookup node).getD (-1) < lv + 1
        · rw [if_pos hupd] at h1
          by_cases hm : m = node
          · subst hm
            rw [lookup_updA_self] at h1
            refine Or.inr ⟨0, WalkTo.nil m, ?_⟩
            have : lv + 1 = v := by injection h1
            omega
          · rw [lookup_updA_ne st.times node m (lv + 1) hm] at h1
            exact Or.inl h1
        · rw [if_neg hupd] at h1
          exact Or.inl h1
      · refine Or.inr ⟨k + 1, WalkTo.cons (mem_adjSorted.mp hc) hw, ?_⟩
        push_cast
        omega
    refine ⟨hF, ?_⟩
    intro cs
    induction cs with
    | nil =>
      intro lv st st' heq m v hv
      obtain rfl : st = st' := by simpa [dfsList, List.foldl] using heq
      exact Or.inl hv
    | cons c rest ihc =>
      intro lv st st' heq m v hv
      rw [dfsList_cons] at heq
      cases hstep : dfs g (fuel + 1) c lv st with
      | none => rw [hstep] at heq; simp at heq
      | some st1 =>
        rw [hstep] at heq
        dsimp only at heq
        rcases ihc lv st1 st' heq m v hv with h1 | ⟨c', hc', k, hw, hval⟩
        · rcases hF c lv st st1 hstep m v h1 with h2 | ⟨k, hw, hval⟩
          · exact Or.inl h2
          · exact Or.inr ⟨c, by simp, k, hw, hval⟩
        · exact Or.inr ⟨c', List.mem_cons_of_mem _ hc', k, hw, hval⟩

theorem dfs_complete_aux (g : Graph) : ∀ fuel : Nat,
    (∀ (node : String) (lv : Int) (st st' : DfsSt), -1 ≤ lv →
      dfs g fuel node lv st = some st' →
      ∀ m k, WalkTo g node m k →
        ∃ v, st'.times.lookup m = some v ∧ lv + 1 + k ≤ v) ∧
    (∀ (cs : List String) (lv : Int) (st st' : DfsSt), -1 ≤ lv →
      dfsList g fuel cs lv st = some st' →
      ∀ c ∈ cs, ∀ m k, WalkTo g c m k →
        ∃ v, st'.times.lookup m = some v ∧ lv + 1 + k ≤ v) := by
  intro fuel
  induction fuel with
  | zero =>
    constructor
    · intro node lv st st' _ heq
      simp [dfs] at heq
    · intro cs
      induction cs with
      | nil => intro lv st st' _ heq c hc; simp at hc
      | cons c rest ihc =>
        intro lv st st' _ heq
        rw [dfsList_cons] at heq
        simp [dfs] at heq
  | succ fuel ih =>
    have hF : ∀ (node : String) (lv : Int) (st st' : DfsSt), -1 ≤ lv →
        dfs g (fuel + 1) node lv st = some st' →
        ∀ m k, WalkTo g node m k →
          ∃ v, st'.times.lookup m = some v ∧ lv + 1 + k ≤ v := by
      intro node lv st st' hlv heq m k hwalk
      rw [dfs_succ] at heq
      cases hwalk with
      | nil =>
        by_cases hupd : (st.times.lookup node).getD (-1) < lv + 1
        · rw [if_pos hupd] at heq
          obtain ⟨v', hv', hle⟩ := (dfs_mono_aux g fuel).2 (adjSorted g node) (lv + 1)
            _ st' heq node (lv + 1) (lookup_updA_self st.times node (lv + 1))
          exact ⟨v', hv', by push_cast; omega⟩
        · rw [if_neg hupd] at heq
          push_neg at hupd
          cases hlk : st.times.lookup node with
          | none => rw [hlk] at hupd; simp at hupd; omega
          | some nl =>
            rw [hlk] at hupd
            simp only [Option.getD_some] at hupd
            obtain ⟨v', hv', hle⟩ := (dfs_mono_aux g fuel).2 (adjSorted g node) (lv + 1)
              _ st' heq node nl hlk
            exact ⟨v', hv', by push_cast; omega⟩
      | cons e w =>
        rename_i b j
        have hb : b ∈ adjSorted g node := mem_adjSorted.mpr e
        obtain ⟨v, hv, hle⟩ := ih.2 (adjSorted g node) (lv + 1) _ st' (by omega) heq b hb m j w
        exact ⟨v, hv, by push_cast at hle ⊢; omega⟩
    refine ⟨hF, ?_⟩
    intro cs
    induction cs with
    | nil => intro lv st st' _ heq c hc; simp at hc
    | cons c rest ihc =>
      intro lv st st' hlv heq c' hc' m k hwalk
      rw [dfsList_cons] at heq
      cases hstep : dfs g (fuel + 1) c lv st with
      | none => rw [hstep] at heq; simp at heq
      | some st1 =>
        rw [hstep] at heq
        dsimp only at heq
        rcases List.mem_cons.mp hc' with rfl | hrest
        · obtain ⟨v, hv, hle⟩ := hF c' lv st st1 hlv hstep m k hwalk
          obtain ⟨v2, hv2, hle2⟩ := (dfs_mono_aux g (fuel + 1)).2 rest lv st1 st' heq m v hv
          exact ⟨v2, hv2, le_trans hle hle2⟩
        · exact ihc lv st1 st' hlv heq c' hrest m k hwalk

theorem dfs_seen_aux (g : Graph) : ∀ fuel : Nat,
    (∀ (node : String) (lv : Int) (st st' : DfsSt), dfs g fuel node lv st = some st' →
      ∀ m, m ∈ st'.seen → m ∈ st.seen ∨ ∃ k, WalkTo g node m k) ∧
    (∀ (cs : List String) (lv : Int) (st st' : DfsSt), dfsList g fuel cs lv st = some st' →
      ∀ m, m ∈ st'.seen → m ∈ st.seen ∨ ∃ c ∈ cs, ∃ k, WalkTo g c m k) := by
  intro fuel
  induction fuel with
  | zero =>
    constructor
    · intro node lv st st' heq
      simp [dfs] at heq
    · intro cs
      induction cs with
      | nil =>
        intro lv st st' heq m hm
        obtain rfl : st = st' := by simpa [dfsList, List.foldl] using heq
        exact Or.inl hm
      | cons c rest ihc =>
        intro lv st st' heq
        rw [dfsList_cons] at heq
        simp [dfs] at heq
  | succ fuel ih =>
    have hF : ∀ (node : String) (lv : Int) (st st' : DfsSt),
        dfs g (fuel + 1) node lv st = some st' →
        ∀ m, m ∈ st'.seen → m ∈ st.seen ∨ ∃ k, WalkTo g node m k := by
      intro node lv st st' heq m hm
      rw [dfs_succ] at heq
      rcases ih.2 (adjSorted g node) (lv + 1) _ st' heq m hm with h1 | ⟨c, hc, k, hw⟩
      · dsimp only at h1
        rcases mem_insS.mp h1 with rfl | hmem
        · exact Or.inr ⟨0, WalkTo.nil m⟩
        · exact Or.inl hmem
      · exact Or.inr ⟨k + 1, WalkTo.cons (mem_adjSorted.mp hc) hw⟩
    refine ⟨hF, ?_⟩
    intro cs
    induction cs with
    | nil =>
      intro lv st st' heq m hm
      obtain rfl : st = st' := by simpa [dfsList, List.foldl] using heq
      exact Or.inl hm
    | cons c rest ihc =>
      intro lv st st' heq m hm
      rw [dfsList_cons] at heq
      cases hstep : dfs g (fuel + 1) c lv st with
      | none => rw [hstep] at heq; simp at heq
      | some st1 =>
        rw [hstep] at heq
        dsimp only at heq
        rcases ihc lv st1 st' heq m hm with h1 | ⟨c', hc', k, hw⟩
        · rcases hF c lv st st1 hstep m h1 with h2 | ⟨k, hw⟩
          · exact Or.inl h2
          · exact Or.inr ⟨c, by simp, k, hw⟩
        · exact Or.inr ⟨c', List.mem_cons_of_mem _ hc', k, hw⟩

theorem dfs_seen_nodup_aux (g : Graph) : ∀ fuel : Nat,
    (∀ (node : String) (lv : Int) (st st' : DfsSt), dfs g fuel node lv st = some st' →
      st.seen.Nodup → st'.seen.Nodup) ∧
    (∀ (cs : List String) (lv : Int) (st st' : DfsSt), dfsList g fuel cs lv st = some st' →
      st.seen.Nodup → st'.seen.Nodup) := by
  intro fuel
  induction fuel with
  | zero =>
    constructor
    · intro node lv st st' heq
      simp [dfs] at heq
    · intro cs
      induction cs with
      | nil =>
        intro lv st st' heq hnd
        obtain rfl : st = st' := by simpa [dfsList, List.foldl] using heq
        exact hnd
      | cons c rest ihc =>
        intro lv st st' heq
        rw [dfsList_cons] at heq
        simp [dfs] at heq
  | succ fuel ih =>
    have hF : ∀ (node : String) (lv : Int) (st st' : DfsSt),
        dfs g (fuel + 1) node lv st = some st' → st.seen.Nodup → st'.seen.Nodup := by
      intro node lv st st' heq hnd
      rw [dfs_succ] at heq
      exact ih.2 (adjSorted g node) (lv + 1) _ st' heq (nodup_insS hnd node)
    refine ⟨hF, ?_⟩
    intro cs
    induction cs with
    | nil =>
      intro lv st st' heq hnd
      obtain rfl : st = st' := by simpa [dfsList, List.foldl] using heq
      exact hnd
    | cons c rest ihc =>
      intro lv st st' heq hnd
      rw [dfsList_cons] at heq
      cases hstep : dfs g (fuel + 1) c lv st with
      | none => rw [hstep] at heq; simp at heq
      | some st1 =>
        rw [hstep] at heq
        dsimp only at heq
        exact ihc lv st1 st' heq (hF c lv st st1 hstep hnd)


theorem init_le_foldl_max (f : String → Int) :
    ∀ (l : List String) (init : Int),
      init ≤ l.foldl (fun acc q => max acc (f q)) init := by
  intro l
  induction l with
  | nil => intro init; simp [List.foldl]
  | cons q rest ih =>
    intro init
    simp only [List.foldl]
    exact le_trans (le_max_left _ _) (ih (max init (f q)))

theorem le_foldl_max (f : String → Int) :
    ∀ (l : List String) (init : Int) (p : String), p ∈ l →
      f p ≤ l.foldl (fun acc q => max acc (f q)) init := by
  intro l
  induction l with
  | nil => intro init p hp; simp at hp
  | cons q rest ih =>
    intro init p hp
    rcases List.mem_cons.mp hp with rfl | hrest
    · simp only [List.foldl]
      exact le_trans (le_max_right _ _) (init_le_foldl_max f rest (max init (f p)))
    · exact ih (max init (f q)) p hrest

theorem foldl_max_le (f : String → Int) (B : Int) :
    ∀ (l : List String) (init : Int), init ≤ B → (∀ p ∈ l, f p ≤ B) →
      l.foldl (fun acc q => max acc (f q)) init ≤ B := by
  intro l
  induction l with
  | nil => intro init hinit _; simpa [List.foldl] using hinit
  | cons q rest ih =>
    intro init hinit hall
    simp only [List.foldl]
    exact ih (max init (f q)) (max_le hinit (hall q (by simp)))
      (fun p hp => hall p (List.mem_cons_of_mem _ hp))

/-- C3: on every validated graph where `get_asap` succeeds, the ASAP map
computed by the forward DFS relaxation satisfies the longest-path-distance
reference definition: the source is assigned step 0 and every other node `n`
is assigned the maximum over its predecessors `p` of `ASAP(p) + 1`. -/
theorem asap_fixpoint (g : Graph) (fuel : Nat) (ma : List (String × Int))
    (hwf : g.Wf) (h : get_asap g fuel = some (.ok ma)) :
    ma.lookup g.source = some 0 ∧
    ∀ n ∈ g.nodes, n ≠ g.source →
      ma.lookup n = some (asapSpecVal ma (predSorted g n)) := by
  obtain ⟨hnd, hlen2, hcl, hpnd⟩ := hwf
  unfold get_asap at h
  by_cases hce : (adjSorted g g.source).isEmpty
  · rw [if_pos hce] at h
    simp at h
  · rw [if_neg hce] at h
    cases hrun : dfsList g fuel (adjSorted g g.source) 0
        ⟨[(g.source, 0)], [g.source]⟩ with
    | none => rw [hrun] at h; simp at h
    | some st =>
      rw [hrun] at h
      dsimp only at h
      by_cases hseen : g.nodes.length ≠ st.seen.length
      · rw [if_pos hseen] at h; simp at h
      · rw [if_neg hseen] at h
        push_neg at hseen
        have hma : st.times = ma := by simpa using h
        rw [← hma]
        -- walks starting at children of the source are bounded by the fuel
        have hbound : ∀ c ∈ adjSorted g g.source, ∀ m' k, WalkTo g c m' k → k < fuel :=
          (dfs_fuel_aux g fuel).2 _ 0 _ st hrun
        -- hence no nonempty walk from the source back to itself exists
        have hnocyc : ∀ j : Nat, ¬WalkTo g g.source g.source (j + 1) := by
          intro j hw
          cases hw with
          | cons e w =>
            rename_i c
            have hc : c ∈ adjSorted g g.source := mem_adjSorted.mpr e
            have hcc : WalkTo g c c (j + 1) := walkTo_snoc w e
            have hpump : WalkTo g c c (fuel * (j + 1)) := walkTo_pump hcc fuel
            have hlt := hbound c hc c (fuel * (j + 1)) hpump
            have h1 : fuel * 1 ≤ fuel * (j + 1) := Nat.mul_le_mul_left fuel (by omega)
            rw [Nat.mul_one] at h1
            omega
        -- every walk from the source back to itself is trivial
        have hwalks_src : ∀ k, WalkTo g g.source g.source k → k = 0 := by
          intro k hw
          cases k with
          | zero => rfl
          | succ j => exact absurd hw (hnocyc j)
        -- the source keeps its initial value 0
        have hsrc : st.times.lookup g.source = some 0 := by
          obtain ⟨v, hv, -⟩ := (dfs_mono_aux g fuel).2 _ 0 _ st hrun g.source 0
            (by simp [List.lookup_cons])
          rcases (dfs_sound_aux g fuel).2 _ 0 _ st hrun g.source v hv with h1 | ⟨c, hc, k, hw, hval⟩
          · have hv0 : (0 : Int) = v := by simpa [List.lookup_cons] using h1
            rw [hv, ← hv0]
          · exfalso
            have e : g.EdgeP g.source c := mem_adjSorted.mp hc
            exact hnocyc k (WalkTo.cons e hw)
        refine ⟨hsrc, ?_⟩
        -- every node in the final seen set is a graph node
        have hsub : ∀ m' ∈ st.seen, m' ∈ g.nodes := by
          intro m' hm'
          rcases (dfs_seen_aux g fuel).2 _ 0 _ st hrun m' hm' with h1 | ⟨c, hc, k, hw⟩
          · have hm : m' = g.source := by simpa using h1
            exact hm ▸ source_mem hlen2
          · cases k with
            | zero =>
              have hc' : c ∈ g.nodes := (edgeP_mem hcl (mem_adjSorted.mp hc)).2
              exact (walkTo_zero hw) ▸ hc'
            | succ j => exact walk_end_mem hcl hw
        have hndseen : st.seen.Nodup :=
          (dfs_seen_nodup_aux g fuel).2 _ 0 _ st hrun (by simp)
        have hperm : st.seen.Perm g.nodes :=
          (List.subperm_of_subset hndseen hsub).perm_of_length_le (le_of_eq hseen)
        have hreach : ∀ n ∈ g.nodes, n ≠ g.source → ∃ k, WalkTo g g.source n (k + 1) := by
          intro n hn hns
          have hnseen : n ∈ st.seen := hperm.mem_iff.mpr hn
          rcases (dfs_seen_aux g fuel).2 _ 0 _ st hrun n hnseen with h1 | ⟨c, hc, k, hw⟩
          · exact absurd (by simpa using h1) hns
          · exact ⟨k, WalkTo.cons (mem_adjSorted.mp hc) hw⟩
        -- each node's value dominates the length of every walk from the source
        have hub : ∀ p ∈ g.nodes, ∀ j : Nat, WalkTo g g.source p j →
            ∃ vp, st.times.lookup p = some vp ∧ (j : Int) ≤ vp := by
          intro p _ j hw
          by_cases hps : p = g.source
          · subst hps
            have hj0 : j = 0 := hwalks_src j hw
            subst hj0
            exact ⟨0, hsrc, by simp⟩
          · cases hw with
            | nil => exact absurd rfl hps
            | cons e w =>
              rename_i c j'
              have hc : c ∈ adjSorted g g.source := mem_adjSorted.mpr e
              obtain ⟨v, hv, hle⟩ := (dfs_complete_aux g fuel).2 _ 0 _ st (by omega)
                hrun c hc p j' w
              exact ⟨v, hv, by push_cast at hle ⊢; omega⟩
        -- each node's value is realised by some walk from the source
        have hval : ∀ p ∈ g.nodes, ∃ kp : Nat, st.times.lookup p = some (kp : Int) ∧
            WalkTo g g.source p kp := by
          intro p hp
          by_cases hps : p = g.source
          · subst hps
            exact ⟨0, hsrc, WalkTo.nil _⟩
          · obtain ⟨k, hw⟩ := hreach p hp hps
            obtain ⟨v, hv, -⟩ := hub p hp (k + 1) hw
            rcases (dfs_sound_aux g fuel).2 _ 0 _ st hrun p v hv with h1 | ⟨c, hc, k', hw', hv'⟩
            · exfalso
              rw [show (List.lookup p [(g.source, (0 : Int))]) = none by
                simp [List.lookup_cons, beq_false_of_ne hps]] at h1
              simp at h1
            · refine ⟨k' + 1, ?_, WalkTo.cons (mem_adjSorted.mp hc) hw'⟩
              rw [hv, hv']
              push_cast
              ring_nf
        intro n hn hns
        obtain ⟨kn, hkn, hwn⟩ := hval n hn
        rw [hkn]
        congr 1
        unfold asapSpecVal
        have hkn1 : 1 ≤ kn := by
          cases hwn with
          | nil => exact absurd rfl hns
          | cons e w => omega
        apply le_antisymm
        · -- kn is at most the fold: decompose the walk at its last edge
          obtain ⟨j, rfl⟩ : ∃ j, kn = j + 1 := ⟨kn - 1, by omega⟩
          obtain ⟨p, hwp, he⟩ := walkTo_last_edge hwn
          have hp : p ∈ predSorted g n := mem_predSorted.mpr he
          have hpn : p ∈ g.nodes := (edgeP_mem hcl he).1
          obtain ⟨vp, hvp, hlep⟩ := hub p hpn j hwp
          calc ((j : Nat) + 1 : Int) ≤ vp + 1 := by omega
            _ = (st.times.lookup p).getD 0 + 1 := by rw [hvp]; rfl
            _ ≤ _ := le_foldl_max (fun q => (st.times.lookup q).getD 0 + 1)
                  (predSorted g n) 0 p hp
        · -- the fold is at most kn: every predecessor reaches n in one more step
          apply foldl_max_le
          · exact_mod_cast Nat.zero_le kn
          · intro p hp
            have he : g.EdgeP p n := mem_predSorted.mp hp
            have hpn : p ∈ g.nodes := (edgeP_mem hcl he).1
            obtain ⟨kp, hkp, hwp⟩ := hval p hpn
            obtain ⟨vn, hvn, hlen⟩ := hub n hn (kp + 1) (walkTo_snoc hwp he)
            have hveq : vn = (kn : Int) := by
              rw [hkn] at hvn
              injection hvn.symm
            rw [hkp]
            simp only [Option.getD_some]
            rw [← hveq]
            push_cast at hlen ⊢
            omega

theorem asap_fixpoint_witness :
    List.lookup gChain.source [("s", (0 : Int)), ("a", 1), ("t", 2)] = some 0 ∧
    ∀ n ∈ gChain.nodes, n ≠ gChain.source →
      List.lookup n [("s", (0 : Int)), ("a", 1), ("t", 2)] =
        some (asapSpecVal [("s", (0 : Int)), ("a", 1), ("t", 2)] (predSorted gChain n)) :=
  asap_fixpoint gChain 10 [("s", 0), ("a", 1), ("t", 2)] (by decide) (by rfl)

theorem dfsRev_mono_aux (g : Graph) : ∀ fuel : Nat,
    (∀ (node : String) (lv : Int) (st st' : DfsSt), dfs_reverse g fuel node lv st = some st' →
      ∀ m v, st.times.lookup m = some v →
        ∃ v', st'.times.lookup m = some v' ∧ v' ≤ v) ∧
    (∀ (cs : List String) (lv : Int) (st st' : DfsSt), dfsRevList g fuel cs lv st = some st' →
      ∀ m v, st.times.lookup m = some v →
        ∃ v', st'.times.lookup m = some v' ∧ v' ≤ v) := by
  intro fuel
  induction fuel with
  | zero =>
    constructor
    · intro node lv st st' heq
      simp [dfs_reverse] at heq
    · intro cs
      induction cs with
      | nil =>
        intro lv st st' heq m v hv
        obtain rfl : st = st' := by simpa [dfsRevList, List.foldl] using heq
        exact ⟨v, hv, le_refl v⟩
      | cons c rest ihc =>
        intro lv st st' heq
        rw [dfsRevList_cons] at heq
        simp [dfs_reverse] at heq
  | succ fuel ih =>
    have hF : ∀ (node : String) (lv : Int) (st st' : DfsSt),
        dfs_reverse g (fuel + 1) node lv st = some st' →
        ∀ m v, st.times.lookup m = some v →
          ∃ v', st'.times.lookup m = some v' ∧ v' ≤ v := by
      intro node lv st st' heq m v hv
      rw [dfs_reverse_succ] at heq
      cases hlk : st.times.lookup node with
      | none =>
        rw [hlk] at heq
        dsimp only at heq
        have hm : m ≠ node := by
          intro hmn
          rw [hmn, hlk] at hv
          exact Option.noConfusion hv
        have h1 : (updA st.times node (lv - 1)).lookup m = some v := by
          rw [lookup_updA_ne st.times node m (lv - 1) hm]; exact hv
        exact ih.2 (predSorted g node) (lv - 1) _ st' heq m v h1
      | some nl =>
        rw [hlk] at heq
        dsimp only at heq
        by_cases hupd : lv - 1 < nl
        · rw [if_pos hupd] at heq
          by_cases hm : m = node
          · subst hm
            have hvnl : v = nl := by
              rw [hlk] at hv
              injection hv with h2
              exact h2.symm
            obtain ⟨v', hv', hle⟩ := ih.2 (predSorted g m) (lv - 1) _ st' heq m (lv - 1)
              (lookup_updA_self st.times m (lv - 1))
            exact ⟨v', hv', by omega⟩
          · have h1 : (updA st.times node (lv - 1)).lookup m = some v := by
              rw [lookup_updA_ne st.times node m (lv - 1) hm]; exact hv
            exact ih.2 (predSorted g node) (lv - 1) _ st' heq m v h1
        · rw [if_neg hupd] at heq
          exact ih.2 (predSorted g node) (lv - 1) _ st' heq m v hv
    refine ⟨hF, ?_⟩
    intro cs
    induction cs with
    | nil =>
      intro lv st st' heq m v hv
      obtain rfl : st = st' := by simpa [dfsRevList, List.foldl] using heq
      exact ⟨v, hv, le_refl v⟩
    | cons c rest ihc =>
      intro lv st st' heq m v hv
      rw [dfsRevList_cons] at heq
      cases hstep : dfs_reverse g (fuel + 1) c lv st with
      | none => rw [hstep] at heq; simp at heq
      | some st1 =>
        rw [hstep] at heq
        dsimp only at heq
        obtain ⟨v1, hv1, hle1⟩ := hF c lv st st1 hstep m v hv
        obtain ⟨v2, hv2, hle2⟩ := ihc lv st1 st' heq m v1 hv1
        exact ⟨v2, hv2, le_trans hle2 hle1⟩

theorem dfsRev_fuel_aux (g : Graph) : ∀ fuel : Nat,
    (∀ (node : String) (lv : Int) (st st' : DfsSt), dfs_reverse g fuel node lv st = some st' →
      ∀ m k, WalkTo g m node k → k < fuel) ∧
    (∀ (cs : List String) (lv : Int) (st st' : DfsSt), dfsRevList g fuel cs lv st = some st' →
      ∀ c ∈ cs, ∀ m k, WalkTo g m c k → k < fuel) := by
  intro fuel
  induction fuel with
  | zero =>
    constructor
    · intro node lv st st' heq
      simp [dfs_reverse] at heq
    · intro cs
      induction cs with
      | nil => intro lv st st' heq c hc; simp at hc
      | cons c rest ihc =>
        intro lv st st' heq
        rw [dfsRevList_cons] at heq
        simp [dfs_reverse] at heq
  | succ fuel ih =>
    have hF : ∀ (node : String) (lv : Int) (st st' : DfsSt),
        dfs_reverse g (fuel + 1) node lv st = some st' →
        ∀ m k, WalkTo g m node k → k < fuel + 1 := by
      intro node lv st st' heq m k hwalk
      rw [dfs_reverse_succ] at heq
      cases k with
      | zero => omega
      | succ j =>
        obtain ⟨b, hwb, he⟩ := walkTo_last_edge hwalk
        have hb : b ∈ predSorted g node := mem_predSorted.mpr he
        have := ih.2 (predSorted g node) (lv - 1) _ st' heq b hb m j hwb
        omega
    refine ⟨hF, ?_⟩
    intro cs
    induction cs with
    | nil => intro lv st st' heq c hc; simp at hc
    | cons c rest ihc =>
      intro lv st st' heq c' hc' m k hwalk
      rw [dfsRevList_cons] at heq
      cases hstep : dfs_reverse g (fuel + 1) c lv st with
      | none => rw [hstep] at heq; simp at heq
      | some st1 =>
        rw [hstep] at heq
        dsimp only at heq
        rcases List.mem_cons.mp hc' with rfl | hrest
        · exact hF c' lv st st1 hstep m k hwalk
        · exact ihc lv st1 st' heq c' hrest m k hwalk

theorem dfsRev_sound_aux (g : Graph) : ∀ fuel : Nat,
    (∀ (node : String) (lv : Int) (st st' : DfsSt), dfs_reverse g fuel node lv st = some st' →
      ∀ m v, st'.times.lookup m = some v →
        st.times.lookup m = some v ∨ ∃ k : Nat, WalkTo g m node k ∧ v = lv - 1 - k) ∧
    (∀ (cs : List String) (lv : Int) (st st' : DfsSt), dfsRevList g fuel cs lv st = some st' →
      ∀ m v, st'.times.lookup m = some v →
        st.times.lookup m = some v ∨
          ∃ c ∈ cs, ∃ k : Nat, WalkTo g m c k ∧ v = lv - 1 - k) := by
  intro fuel
  induction fuel with
  | zero =>
    constructor
    · intro node lv st st' heq
      simp [dfs_reverse] at heq
    · intro cs
      induction cs with
      | nil =>
        intro lv st st' heq m v hv
        obtain rfl : st = st' := by simpa [dfsRevList, List.foldl] using heq
        exact Or.inl hv
      | cons c rest ihc =>
        intro lv st st' heq
        rw [dfsRevList_cons] at heq
        simp [dfs_reverse] at heq
  | succ fuel ih =>
    have hF : ∀ (node : String) (lv : Int) (st st' : DfsSt),
        dfs_reverse g (fuel + 1) node lv st = some st' →
        ∀ m v, st'.times.lookup m = some v →
          st.times.lookup m = some v ∨
            ∃ k : Nat, WalkTo g m node k ∧ v = lv - 1 - k := by
      intro node lv st st' heq m v hv
      rw [dfs_reverse_succ] at heq
      rcases ih.2 (predSorted g node) (lv - 1) _ st' heq m v hv with h1 | ⟨c, hc, k, hw, hval⟩
      · dsimp only at h1
        cases hlk : st.times.lookup node with
        | none =>
          rw [hlk] at h1
          dsimp only at h1
          by_cases hm : m = node
          · subst hm
            rw [lookup_updA_self] at h1
            refine Or.inr ⟨0, WalkTo.nil m, ?_⟩
            have hveq : lv - 1 = v := by injection h1
            omega
          · rw [lookup_updA_ne st.times node m (lv - 1) hm] at h1
            exact Or.inl h1
        | some nl =>
          rw [hlk] at h1
          dsimp only at h1
          by_cases hupd : lv - 1 < nl
          · rw [if_pos hupd] at h1
            by_cases hm : m = node
            · subst hm
              rw [lookup_updA_self] at h1
              refine Or.inr ⟨0, WalkTo.nil m, ?_⟩
              have hveq : lv - 1 = v := by injection h1
              omega
            · rw [lookup_updA_ne st.times node m (lv - 1) hm] at h1
              exact Or.inl h1
          · rw [if_neg hupd] at h1
            exact Or.inl h1
      · refine Or.inr ⟨k + 1, walkTo_snoc hw (mem_predSorted.mp hc), ?_⟩
        push_cast
        omega
    refine ⟨hF, ?_⟩
    intro cs
    induction cs with
    | nil =>
      intro lv st st' heq m v hv
      obtain rfl : st = st' := by simpa [dfsRevList, List.foldl] using heq
      exact Or.inl hv
    | cons c rest ihc =>
      intro lv st st' heq m v hv
      rw [dfsRevList_cons] at heq
      cases hstep : dfs_reverse g (fuel + 1) c lv st with
      | none => rw [hstep] at heq; simp at heq
      | some st1 =>
        rw [hstep] at heq
        dsimp only at heq
        rcases ihc lv st1 st' heq m v hv with h1 | ⟨c', hc', k, hw, hval⟩
        · rcases hF c lv st st1 hstep m v h1 with h2 | ⟨k, hw, hval⟩
          · exact Or.inl h2
          · exact Or.inr ⟨c, by simp, k, hw, hval⟩
        · exact Or.inr ⟨c', List.mem_cons_of_mem _ hc', k, hw, hval⟩

theorem dfsRev_complete_aux (g : Graph) : ∀ fuel : Nat,
    (∀ (node : String) (lv : Int) (st st' : DfsSt),
      dfs_reverse g fuel node lv st = some st' →
      ∀ m k, WalkTo g m node k →
        ∃ v, st'.times.lookup m = some v ∧ v ≤ lv - 1 - k) ∧
    (∀ (cs : List String) (lv : Int) (st st' : DfsSt),
      dfsRevList g fuel cs lv st = some st' →
      ∀ c ∈ cs, ∀ m k, WalkTo g m c k →
        ∃ v, st'.times.lookup m = some v ∧ v ≤ lv - 1 - k) := by
  intro fuel
  induction fuel with
  | zero =>
    constructor
    · intro node lv st st' heq
      simp [dfs_reverse] at heq
    · intro cs
      induction cs with
      | nil => intro lv st st' heq c hc; simp at hc
      | cons c rest ihc =>
        intro lv st st' heq
        rw [dfsRevList_cons] at heq
        simp [dfs_reverse] at heq
  | succ fuel ih =>
    have hF : ∀ (node : String) (lv : Int) (st st' : DfsSt),
        dfs_reverse g (fuel + 1) node lv st = some st' →
        ∀ m k, WalkTo g m node k →
          ∃ v, st'.times.lookup m = some v ∧ v ≤ lv - 1 - k := by
      intro node lv st st' heq m k hwalk
      rw [dfs_reverse_succ] at heq
      cases k with
      | zero =>
        obtain rfl : m = node := walkTo_zero hwalk
        cases hlk : st.times.lookup m with
        | none =>
          rw [hlk] at heq
          dsimp only at heq
          obtain ⟨v', hv', hle⟩ := (dfsRev_mono_aux g fuel).2 (predSorted g m) (lv - 1)
            _ st' heq m (lv - 1) (lookup_updA_self st.times m (lv - 1))
          exact ⟨v', hv', by omega⟩
        | some nl =>
          rw [hlk] at heq
          dsimp only at heq
          by_cases hupd : lv - 1 < nl
          · rw [if_pos hupd] at heq
            obtain ⟨v', hv', hle⟩ := (dfsRev_mono_aux g fuel).2 (predSorted g m) (lv - 1)
              _ st' heq m (lv - 1) (lookup_updA_self st.times m (lv - 1))
            exact ⟨v', hv', by omega⟩
          · rw [if_neg hupd] at heq
            push_neg at hupd
            obtain ⟨v', hv', hle⟩ := (dfsRev_mono_aux g fuel).2 (predSorted g m) (lv - 1)
              _ st' heq m nl hlk
            exact ⟨v', hv', by omega⟩
      | succ j =>
        obtain ⟨b, hwb, he⟩ := walkTo_last_edge hwalk
        have hb : b ∈ predSorted g node := mem_predSorted.mpr he
        obtain ⟨v, hv, hle⟩ := ih.2 (predSorted g node) (lv - 1) _ st' heq b hb m j hwb
        exact ⟨v, hv, by push_cast at hle ⊢; omega⟩
    refine ⟨hF, ?_⟩
    intro cs
    induction cs with
    | nil => intro lv st st' heq c hc; simp at hc
    | cons c rest ihc =>
      intro lv st st' heq c' hc' m k hwalk
      rw [dfsRevList_cons] at heq
      cases hstep : dfs_reverse g (fuel + 1) c lv st with
      | none => rw [hstep] at heq; simp at heq
      | some st1 =>
        rw [hstep] at heq
        dsimp only at heq
        rcases List.mem_cons.mp hc' with rfl | hrest
        · obtain ⟨v, hv, hle⟩ := hF c' lv st st1 hstep m k hwalk
          obtain ⟨v2, hv2, hle2⟩ := (dfsRev_mono_aux g (fuel + 1)).2 rest lv st1 st' heq m v hv
          exact ⟨v2, hv2, le_trans hle2 hle⟩
        · exact ihc lv st1 st' heq c' hrest m k hwalk

theorem dfsRev_seen_aux (g : Graph) : ∀ fuel : Nat,
    (∀ (node : String) (lv : Int) (st st' : DfsSt), dfs_reverse g fuel node lv st = some st' →
      ∀ m, m ∈ st'.seen → m ∈ st.seen ∨ ∃ k, WalkTo g m node k) ∧
    (∀ (cs : List String) (lv : Int) (st st' : DfsSt), dfsRevList g fuel cs lv st = some st' →
      ∀ m, m ∈ st'.seen → m ∈ st.seen ∨ ∃ c ∈ cs, ∃ k, WalkTo g m c k) := by
  intro fuel
  induction fuel with
  | zero =>
    constructor
    · intro node lv st st' heq
      simp [dfs_reverse] at heq
    · intro cs
      induction cs with
      | nil =>
        intro lv st st' heq m hm
        obtain rfl : st = st' := by simpa [dfsRevList, List.foldl] using heq
        exact Or.inl hm
      | cons c rest ihc =>
        intro lv st st' heq
        rw [dfsRevList_cons] at heq
        simp [dfs_reverse] at heq
  | succ fuel ih =>
    have hF : ∀ (node : String) (lv : Int) (st st' : DfsSt),
        dfs_reverse g (fuel + 1) node lv st = some st' →
        ∀ m, m ∈ st'.seen → m ∈ st.seen ∨ ∃ k, WalkTo g m node k := by
      intro node lv st st' heq m hm
      rw [dfs_reverse_succ] at heq
      rcases ih.2 (predSorted g node) (lv - 1) _ st' heq m hm with h1 | ⟨c, hc, k, hw⟩
      · dsimp only at h1
        rcases mem_insS.mp h1 with rfl | hmem
        · exact Or.inr ⟨0, WalkTo.nil m⟩
        · exact Or.inl hmem
      · exact Or.inr ⟨k + 1, walkTo_snoc hw (mem_predSorted.mp hc)⟩
    refine ⟨hF, ?_⟩
    intro cs
    induction cs with
    | nil =>
      intro lv st st' heq m hm
      obtain rfl : st = st' := by simpa [dfsRevList, List.foldl] using heq
      exact Or.inl hm
    | cons c rest ihc =>
      intro lv st st' heq m hm
      rw [dfsRevList_cons] at heq
      cases hstep : dfs_reverse g (fuel + 1) c lv st with
      | none => rw [hstep] at heq; simp at heq
      | some st1 =>
        rw [hstep] at heq
        dsimp only at heq
        rcases ihc lv st1 st' heq m hm with h1 | ⟨c', hc', k, hw⟩
        · rcases hF c lv st st1 hstep m h1 with h2 | ⟨k, hw⟩
          · exact Or.inl h2
          · exact Or.inr ⟨c, by simp, k, hw⟩
        · exact Or.inr ⟨c', List.mem_cons_of_mem _ hc', k, hw⟩

theorem dfsRev_seen_nodup_aux (g : Graph) : ∀ fuel : Nat,
    (∀ (node : String) (lv : Int) (st st' : DfsSt), dfs_reverse g fuel node lv st = some st' →
      st.seen.Nodup → st'.seen.Nodup) ∧
    (∀ (cs : List String) (lv : Int) (st st' : DfsSt), dfsRevList g fuel cs lv st = some st' →
      st.seen.Nodup → st'.seen.Nodup) := by
  intro fuel
  induction fuel with
  | zero =>
    constructor
    · intro node lv st st' heq
      simp [dfs_reverse] at heq
    · intro cs
      induction cs with
      | nil =>
        intro lv st st' heq hnd
        obtain rfl : st = st' := by simpa [dfsRevList, List.foldl] using heq
        exact hnd
      | cons c rest ihc =>
        intro lv st st' heq
        rw [dfsRevList_cons] at heq
        simp [dfs_reverse] at heq
  | succ fuel ih =>
    have hF : ∀ (node : String) (lv : Int) (st st' : DfsSt),
        dfs_reverse g (fuel + 1) node lv st = some st' → st.seen.Nodup → st'.seen.Nodup := by
      intro node lv st st' heq hnd
      rw [dfs_reverse_succ] at heq
      exact ih.2 (predSorted g node) (lv - 1) _ st' heq (nodup_insS hnd node)
    refine ⟨hF, ?_⟩
    intro cs
    induction cs with
    | nil =>
      intro lv st st' heq hnd
      obtain rfl : st = st' := by simpa [dfsRevList, List.foldl] using heq
      exact hnd
    | cons c rest ihc =>
      intro lv st st' heq hnd
      rw [dfsRevList_cons] at heq
      cases hstep : dfs_reverse g (fuel + 1) c lv st with
      | none => rw [hstep] at heq; simp at heq
      | some st1 =>
        rw [hstep] at heq
        dsimp only at heq
        exact ihc lv st1 st' heq (hF c lv st st1 hstep hnd)

theorem asap_facts (g : Graph) (fuel : Nat) (ma : List (String × Int))
    (hwf : g.Wf) (h : get_asap g fuel = some (.ok ma)) :
    ma.lookup g.source = some 0 ∧
    (∀ p ∈ g.nodes, ∀ j : Nat, WalkTo g g.source p j →
      ∃ vp, ma.lookup p = some vp ∧ (j : Int) ≤ vp) ∧
    (∀ p ∈ g.nodes, ∃ kp : Nat, ma.lookup p = some (kp : Int) ∧
      WalkTo g g.source p kp) := by
  obtain ⟨hnd, hlen2, hcl, hpnd⟩ := hwf
  unfold get_asap at h
  by_cases hce : (adjSorted g g.source).isEmpty
  · rw [if_pos hce] at h
    simp at h
  · rw [if_neg hce] at h
    cases hrun : dfsList g fuel (adjSorted g g.source) 0
        ⟨[(g.source, 0)], [g.source]⟩ with
    | none => rw [hrun] at h; simp at h
    | some st =>
      rw [hrun] at h
      dsimp only at h
      by_cases hseen : g.nodes.length ≠ st.seen.length
      · rw [if_pos hseen] at h; simp at h
      · rw [if_neg hseen] at h
        push_neg at hseen
        have hma : st.times = ma := by simpa using h
        rw [← hma]
        have hbound : ∀ c ∈ adjSorted g g.source, ∀ m' k, WalkTo g c m' k → k < fuel :=
          (dfs_fuel_aux g fuel).2 _ 0 _ st hrun
        have hnocyc : ∀ j : Nat, ¬WalkTo g g.source g.source (j + 1) := by
          intro j hw
          cases hw with
          | cons e w =>
            rename_i c
            have hc : c ∈ adjSorted g g.source := mem_adjSorted.mpr e
            have hcc : WalkTo g c c (j + 1) := walkTo_snoc w e
            have hpump : WalkTo g c c (fuel * (j + 1)) := walkTo_pump hcc fuel
            have hlt := hbound c hc c (fuel * (j + 1)) hpump
            have h1 : fuel * 1 ≤ fuel * (j + 1) := Nat.mul_le_mul_left fuel (by omega)
            rw [Nat.mul_one] at h1
            omega
        have hwalks_src : ∀ k, WalkTo g g.source g.source k → k = 0 := by
          intro k hw
          cases k with
          | zero => rfl
          | succ j => exact absurd hw (hnocyc j)
        have hsrc : st.times.lookup g.source = some 0 := by
          obtain ⟨v, hv, -⟩ := (dfs_mono_aux g fuel).2 _ 0 _ st hrun g.source 0
            (by simp [List.lookup_cons])
          rcases (dfs_sound_aux g fuel).2 _ 0 _ st hrun g.source v hv with h1 | ⟨c, hc, k, hw, hval⟩
          · have hv0 : (0 : Int) = v := by simpa [List.lookup_cons] using h1
            rw [hv, ← hv0]
          · exfalso
            have e : g.EdgeP g.source c := mem_adjSorted.mp hc
            exact hnocyc k (WalkTo.cons e hw)
        refine ⟨hsrc, ?_, ?_⟩
        · intro p _ j hw
          by_cases hps : p = g.source
          · subst hps
            have hj0 : j = 0 := hwalks_src j hw
            subst hj0
            exact ⟨0, hsrc, by simp⟩
          · cases hw with
            | nil => exact absurd rfl hps
            | cons e w =>
              rename_i c j'
              have hc : c ∈ adjSorted g g.source := mem_adjSorted.mpr e
              obtain ⟨v, hv, hle⟩ := (dfs_complete_aux g fuel).2 _ 0 _ st (by omega)
                hrun c hc p j' w
              exact ⟨v, hv, by push_cast at hle ⊢; omega⟩
        · have hsub : ∀ m' ∈ st.seen, m' ∈ g.nodes := by
            intro m' hm'
            rcases (dfs_seen_aux g fuel).2 _ 0 _ st hrun m' hm' with h1 | ⟨c, hc, k, hw⟩
            · have hm : m' = g.source := by simpa using h1
              exact hm ▸ source_mem hlen2
            · cases k with
              | zero =>
                have hc' : c ∈ g.nodes := (edgeP_mem hcl (mem_adjSorted.mp hc)).2
                exact (walkTo_zero hw) ▸ hc'
              | succ j => exact walk_end_mem hcl hw
          have hndseen : st.seen.Nodup :=
            (dfs_seen_nodup_aux g fuel).2 _ 0 _ st hrun (by simp)
          have hperm : st.seen.Perm g.nodes :=
            (List.subperm_of_subset hndseen hsub).perm_of_length_le (le_of_eq hseen)
          intro p hp
          by_cases hps : p = g.source
          · subst hps
            exact ⟨0, hsrc, WalkTo.nil _⟩
          · have hpseen : p ∈ st.seen := hperm.mem_iff.mpr hp
            have hreach : ∃ k, WalkTo g g.source p (k + 1) := by
              rcases (dfs_seen_aux g fuel).2 _ 0 _ st hrun p hpseen with h1 | ⟨c, hc, k, hw⟩
              · exact absurd (by simpa using h1) hps
              · exact ⟨k, WalkTo.cons (mem_adjSorted.mp hc) hw⟩
            obtain ⟨k, hw⟩ := hreach
            cases hw with
            | cons e w =>
              rename_i c
              have hc : c ∈ adjSorted g g.source := mem_adjSorted.mpr e
              obtain ⟨v, hv, hle⟩ := (dfs_complete_aux g fuel).2 _ 0 _ st (by omega)
                hrun c hc p k w
              rcases (dfs_sound_aux g fuel).2 _ 0 _ st hrun p v hv with
                h1 | ⟨c', hc', k', hw', hv'⟩
              · exfalso
                rw [show (List.lookup p [(g.source, (0 : Int))]) = none by
                  simp [List.lookup_cons, beq_false_of_ne hps]] at h1
                simp at h1
              · refine ⟨k' + 1, ?_, WalkTo.cons (mem_adjSorted.mp hc') hw'⟩
                rw [hv, hv']
                push_cast
                ring_nf

theorem alap_facts (g : Graph) (L : Int) (fuel : Nat) (ml : List (String × Int))
    (hwf : g.Wf) (h : get_alap g L fuel = some (.ok ml)) :
    ml.lookup g.sink = some (L + 1) ∧
    (∀ p ∈ g.nodes, ∀ j : Nat, WalkTo g p g.sink j →
      ∃ vp, ml.lookup p = some vp ∧ vp ≤ L + 1 - j) ∧
    (∀ p ∈ g.nodes, ∃ kp : Nat, ml.lookup p = some (L + 1 - kp) ∧
      WalkTo g p g.sink kp) := by
  obtain ⟨hnd, hlen2, hcl, hpnd⟩ := hwf
  unfold get_alap at h
  by_cases hpe : (predSorted g g.sink).isEmpty
  · rw [if_pos hpe] at h
    simp at h
  · rw [if_neg hpe] at h
    cases hrun : dfsRevList g fuel (predSorted g g.sink) (L + 1)
        ⟨[(g.sink, L + 1)], [g.sink]⟩ with
    | none => rw [hrun] at h; simp at h
    | some st =>
      rw [hrun] at h
      dsimp only at h
      by_cases hseen : g.nodes.length ≠ st.seen.length
      · rw [if_pos hseen] at h; simp at h
      · rw [if_neg hseen] at h
        push_neg at hseen
        have hml : st.times = ml := by simpa using h
        rw [← hml]
        have hbound : ∀ c ∈ predSorted g g.sink, ∀ m' k, WalkTo g m' c k → k < fuel :=
          (dfsRev_fuel_aux g fuel).2 _ (L + 1) _ st hrun
        have hnocyc : ∀ j : Nat, ¬WalkTo g g.sink g.sink (j + 1) := by
          intro j hw
          obtain ⟨b, hwb, he⟩ := walkTo_last_edge hw
          have hb : b ∈ predSorted g g.sink := mem_predSorted.mpr he
          have hcc : WalkTo g b b (j + 1) := WalkTo.cons he hwb
          have hpump : WalkTo g b b (fuel * (j + 1)) := walkTo_pump hcc fuel
          have hfp : 0 < fuel := hbound b hb b 0 (WalkTo.nil b)
          have hlt := hbound b hb b (fuel * (j + 1)) hpump
          have h1 : fuel * 1 ≤ fuel * (j + 1) := Nat.mul_le_mul_left fuel (by omega)
          rw [Nat.mul_one] at h1
          omega
        have hwalks_sink : ∀ k, WalkTo g g.sink g.sink k → k = 0 := by
          intro k hw
          cases k with
          | zero => rfl
          | succ j => exact absurd hw (hnocyc j)
        have hsink : st.times.lookup g.sink = some (L + 1) := by
          obtain ⟨v, hv, hle⟩ := (dfsRev_mono_aux g fuel).2 _ (L + 1) _ st hrun g.sink (L + 1)
            (by simp [List.lookup_cons])
          rcases (dfsRev_sound_aux g fuel).2 _ (L + 1) _ st hrun g.sink v hv with
            h1 | ⟨c, hc, k, hw, hval⟩
          · have hv0 : L + 1 = v := by simpa [List.lookup_cons] using h1
            rw [hv, ← hv0]
          · exfalso
            have e : g.EdgeP c g.sink := mem_predSorted.mp hc
            exact hnocyc k (walkTo_snoc hw e)
        refine ⟨hsink, ?_, ?_⟩
        · intro p _ j hw
          by_cases hps : p = g.sink
          · subst hps
            have hj0 : j = 0 := hwalks_sink j hw
            subst hj0
            exact ⟨L + 1, hsink, by simp⟩
          · cases j with
            | zero => exact absurd (walkTo_zero hw) hps
            | succ j' =>
              obtain ⟨b, hwb, he⟩ := walkTo_last_edge hw
              have hb : b ∈ predSorted g g.sink := mem_predSorted.mpr he
              obtain ⟨v, hv, hle⟩ := (dfsRev_complete_aux g fuel).2 _ (L + 1) _ st
                hrun b hb p j' hwb
              exact ⟨v, hv, by push_cast at hle ⊢; omega⟩
        · have hsub : ∀ m' ∈ st.seen, m' ∈ g.nodes := by
            intro m' hm'
            rcases (dfsRev_seen_aux g fuel).2 _ (L + 1) _ st hrun m' hm' with
              h1 | ⟨c, hc, k, hw⟩
            · have hm : m' = g.sink := by simpa using h1
              exact hm ▸ sink_mem hlen2
            · cases k with
              | zero =>
                have hc' : c ∈ g.nodes := (edgeP_mem hcl (mem_predSorted.mp hc)).1
                exact (walkTo_zero hw) ▸ hc'
              | succ j => exact walk_start_mem hcl hw
          have hndseen : st.seen.Nodup :=
            (dfsRev_seen_nodup_aux g fuel).2 _ (L + 1) _ st hrun (by simp)
          have hperm : st.seen.Perm g.nodes :=
            (List.subperm_of_subset hndseen hsub).perm_of_length_le (le_of_eq hseen)
          intro p hp
          by_cases hps : p = g.sink
          · subst hps
            exact ⟨0, by simpa using hsink, WalkTo.nil _⟩
          · have hpseen : p ∈ st.seen := hperm.mem_iff.mpr hp
            have hreach : ∃ k, WalkTo g p g.sink (k + 1) := by
              rcases (dfsRev_seen_aux g fuel).2 _ (L + 1) _ st hrun p hpseen with
                h1 | ⟨c, hc, k, hw⟩
              · exact absurd (by simpa using h1) hps
              · exact ⟨k, walkTo_snoc hw (mem_predSorted.mp hc)⟩
            obtain ⟨k, hw⟩ := hreach
            obtain ⟨b, hwb, he⟩ := walkTo_last_edge hw
            have hb : b ∈ predSorted g g.sink := mem_predSorted.mpr he
            obtain ⟨v, hv, hle⟩ := (dfsRev_complete_aux g fuel).2 _ (L + 1) _ st
              hrun b hb p k hwb
            rcases (dfsRev_sound_aux g fuel).2 _ (L + 1) _ st hrun p v hv with
              h1 | ⟨c', hc', k', hw', hv'⟩
            · exfalso
              rw [show (List.lookup p [(g.sink, L + 1)]) = none by
                simp [List.lookup_cons, beq_false_of_ne hps]] at h1
              simp at h1
            · refine ⟨k' + 1, ?_, walkTo_snoc hw' (mem_predSorted.mp hc')⟩
              rw [hv, hv']
              push_cast
              ring_nf

/-- C4: for every validated graph on which both mobility passes succeed with
effective latency `L` at least the minimum (`ASAP(sink) - 1`), the ASAP map
assigns 0 to the source, the ALAP map assigns `L + 1` to the sink, and every
node's ASAP step is at most its ALAP step. -/
theorem mobility_monotone (g : Graph) (fuel : Nat) (L : Int)
    (ma ml : List (String × Int)) (vt : Int) (hwf : g.Wf)
    (ha : get_asap g fuel = some (.ok ma))
    (hl : get_alap g L fuel = some (.ok ml))
    (hvt : ma.lookup g.sink = some vt)
    (hL : vt - 1 ≤ L) :
    ma.lookup g.source = some 0 ∧
    ml.lookup g.sink = some (L + 1) ∧
    ∀ n ∈ g.nodes, ∃ a b, ma.lookup n = some a ∧ ml.lookup n = some b ∧ a ≤ b := by
  obtain ⟨hsrc0, hubA, hvalA⟩ := asap_facts g fuel ma hwf ha
  obtain ⟨hsinkL, hubL, hvalL⟩ := alap_facts g L fuel ml hwf hl
  refine ⟨hsrc0, hsinkL, ?_⟩
  intro n hn
  obtain ⟨kn, hkn, hwn⟩ := hvalA n hn
  obtain ⟨kr, hkr, hwr⟩ := hvalL n hn
  refine ⟨(kn : Int), L + 1 - kr, hkn, hkr, ?_⟩
  have hcat : WalkTo g g.source g.sink (kn + kr) := hwn.trans hwr
  obtain ⟨vt', hvt', hle⟩ := hubA g.sink (sink_mem hwf.2.1) (kn + kr) hcat
  have hveq : vt = vt' := by
    rw [hvt] at hvt'
    injection hvt' with h2
  push_cast at hle ⊢
  omega

theorem mobility_monotone_witness :
    List.lookup gChain.source [("s", (0 : Int)), ("a", 1), ("t", 2)] = some 0 ∧
    List.lookup gChain.sink [("t", (3 : Int)), ("a", 2), ("s", 1)] = some (2 + 1) ∧
    ∀ n ∈ gChain.nodes, ∃ a b,
      List.lookup n [("s", (0 : Int)), ("a", 1), ("t", 2)] = some a ∧
      List.lookup n [("t", (3 : Int)), ("a", 2), ("s", 1)] = some b ∧ a ≤ b :=
  mobility_monotone gChain 10 2 [("s", 0), ("a", 1), ("t", 2)]
    [("t", 3), ("a", 2), ("s", 1)] 2 (by decide) rfl rfl rfl (by decide)

theorem isCyc_restore (g : Graph) : ∀ fuel : Nat,
    (∀ (node : String) (d d' : List String),
      is_cyclic g fuel node d = some (false, d') → d' = d) ∧
    (∀ (cs d d' : List String),
      isCyclicList g fuel cs d = some (false, d') → d' = d) := by
  intro fuel
  induction fuel with
  | zero =>
    constructor
    · intro node d d' heq
      simp [is_cyclic] at heq
    · intro cs
      induction cs with
      | nil =>
        intro d d' heq
        simp [isCyclicList, List.foldl] at heq
        exact heq.symm
      | cons c rest ihc =>
        intro d d' heq
        rw [isCyclicList_cons] at heq
        simp [is_cyclic] at heq
  | succ fuel ih =>
    have hF : ∀ (node : String) (d d' : List String),
        is_cyclic g (fuel + 1) node d = some (false, d') → d' = d := by
      intro node d d' heq
      rw [is_cyclic_succ] at heq
      by_cases hmem : node ∈ d
      · rw [if_pos hmem] at heq
        exact absurd heq (by simp)
      · rw [if_neg hmem] at heq
        cases hrec : isCyclicList g fuel (adjSorted g node) (node :: d) with
        | none => rw [hrec] at heq; simp at heq
        | some bd =>
          obtain ⟨b, d1⟩ := bd
          rw [hrec] at heq
          cases b with
          | true =>
            dsimp only at heq
            exact absurd heq (by simp)
          | false =>
            dsimp only at heq
            have hd1 : d1 = node :: d := ih.2 _ _ _ hrec
            have h2 : d1.erase node = d' := by simpa using heq
            rw [← h2, hd1, List.erase_cons_head]
    refine ⟨hF, ?_⟩
    intro cs
    induction cs with
    | nil =>
      intro d d' heq
      simp [isCyclicList, List.foldl] at heq
      exact heq.symm
    | cons c rest ihc =>
      intro d d' heq
      rw [isCyclicList_cons] at heq
      cases hstep : is_cyclic g (fuel + 1) c d with
      | none => rw [hstep] at heq; simp at heq
      | some bd =>
        obtain ⟨b, d1⟩ := bd
        rw [hstep] at heq
        cases b with
        | true =>
          dsimp only at heq
          exact absurd heq (by simp)
        | false =>
          dsimp only at heq
          have hd1 : d1 = d := hF c d d1 hstep
          rw [hd1] at heq
          exact ihc d d' heq

theorem isCyc_true_sound (g : Graph) : ∀ fuel : Nat,
    (∀ (node : String) (d d' : List String),
      (∀ m ∈ d, ∃ j, WalkTo g m node (j + 1)) →
      is_cyclic g fuel node d = some (true, d') → Cyclic g) ∧
    (∀ (cs d d' : List String),
      (∀ c ∈ cs, ∀ m ∈ d, ∃ j, WalkTo g m c (j + 1)) →
      isCyclicList g fuel cs d = some (true, d') → Cyclic g) := by
  intro fuel
  induction fuel with
  | zero =>
    constructor
    · intro node d d' _ heq
      simp [is_cyclic] at heq
    · intro cs
      induction cs with
      | nil =>
        intro d d' _ heq
        simp [isCyclicList, List.foldl] at heq
      | cons c rest ihc =>
        intro d d' _ heq
        rw [isCyclicList_cons] at heq
        simp [is_cyclic] at heq
  | succ fuel ih =>
    have hF : ∀ (node : String) (d d' : List String),
        (∀ m ∈ d, ∃ j, WalkTo g m node (j + 1)) →
        is_cyclic g (fuel + 1) node d = some (true, d') → Cyclic g := by
      intro node d d' hinv heq
      rw [is_cyclic_succ] at heq
      by_cases hmem : node ∈ d
      · obtain ⟨j, hw⟩ := hinv node hmem
        exact ⟨node, j, hw⟩
      · rw [if_neg hmem] at heq
        cases hrec : isCyclicList g fuel (adjSorted g node) (node :: d) with
        | none => rw [hrec] at heq; simp at heq
        | some bd =>
          obtain ⟨b, d1⟩ := bd
          rw [hrec] at heq
          cases b with
          | false =>
            dsimp only at heq
            exact absurd heq (by simp)
          | true =>
            refine ih.2 (adjSorted g node) (node :: d) d1 ?_ hrec
            intro c hc m hm
            have he : g.EdgeP node c := mem_adjSorted.mp hc
            rcases List.mem_cons.mp hm with rfl | hmd
            · exact ⟨0, WalkTo.cons he (WalkTo.nil c)⟩
            · obtain ⟨j, hw⟩ := hinv m hmd
              exact ⟨j + 1, walkTo_snoc hw he⟩
    refine ⟨hF, ?_⟩
    intro cs
    induction cs with
    | nil =>
      intro d d' _ heq
      simp [isCyclicList, List.foldl] at heq
    | cons c rest ihc =>
      intro d d' hinv heq
      rw [isCyclicList_cons] at heq
      cases hstep : is_cyclic g (fuel + 1) c d with
      | none => rw [hstep] at heq; simp at heq
      | some bd =>
        obtain ⟨b, d1⟩ := bd
        rw [hstep] at heq
        cases b with
        | true => exact hF c d d1 (hinv c (by simp)) hstep
        | false =>
          dsimp only at heq
          have hd1 : d1 = d := (isCyc_restore g (fuel + 1)).1 c d d1 hstep
          rw [hd1] at heq
          exact ihc d d' (fun c' hc' => hinv c' (List.mem_cons_of_mem _ hc')) heq

theorem isCyc_false_complete (g : Graph) : ∀ fuel : Nat,
    (∀ (node : String) (d d' : List String),
      is_cyclic g fuel node d = some (false, d') →
      ∀ m k, WalkTo g node m k → m ∉ d ∧ ∀ j, ¬WalkTo g m m (j + 1)) ∧
    (∀ (cs d d' : List String),
      isCyclicList g fuel cs d = some (false, d') →
      ∀ c ∈ cs, ∀ m k, WalkTo g c m k → m ∉ d ∧ ∀ j, ¬WalkTo g m m (j + 1)) := by
  intro fuel
  induction fuel with
  | zero =>
    constructor
    · intro node d d' heq
      simp [is_cyclic] at heq
    · intro cs
      induction cs with
      | nil => intro d d' heq c hc; simp at hc
      | cons c rest ihc =>
        intro d d' heq
        rw [isCyclicList_cons] at heq
        simp [is_cyclic] at heq
  | succ fuel ih =>
    have hF : ∀ (node : String) (d d' : List String),
        is_cyclic g (fuel + 1) node d = some (false, d') →
        ∀ m k, WalkTo g node m k → m ∉ d ∧ ∀ j, ¬WalkTo g m m (j + 1) := by
      intro node d d' heq m k hwalk
      rw [is_cyclic_succ] at heq
      by_cases hmem : node ∈ d
      · rw [if_pos hmem] at heq
        exact absurd heq (by simp)
      · rw [if_neg hmem] at heq
        cases hrec : isCyclicList g fuel (adjSorted g node) (node :: d) with
        | none => rw [hrec] at heq; simp at heq
        | some bd =>
          obtain ⟨b, d1⟩ := bd
          rw [hrec] at heq
          cases b with
          | true =>
            dsimp only at heq
            exact absurd heq (by simp)
          | false =>
            have hch := ih.2 (adjSorted g node) (node :: d) d1 hrec
            cases hwalk with
            | nil =>
              refine ⟨hmem, ?_⟩
              intro j hcyc
              cases hcyc with
              | cons e w =>
                rename_i c
                have hc : c ∈ adjSorted g node := mem_adjSorted.mpr e
                have h1 := (hch c hc node j w).1
                simp at h1
            | cons e w =>
              rename_i c j
              have hc : c ∈ adjSorted g node := mem_adjSorted.mpr e
              obtain ⟨h1, h2⟩ := hch c hc m j w
              exact ⟨fun hmd => h1 (List.mem_cons_of_mem _ hmd), h2⟩
    refine ⟨hF, ?_⟩
    intro cs
    induction cs with
    | nil => intro d d' heq c hc; simp at hc
    | cons c rest ihc =>
      intro d d' heq c' hc' m k hwalk
      rw [isCyclicList_cons] at heq
      cases hstep : is_cyclic g (fuel + 1) c d with
      | none => rw [hstep] at heq; simp at heq
      | some bd =>
        obtain ⟨b, d1⟩ := bd
        rw [hstep] at heq
        cases b with
        | true =>
          dsimp only at heq
          exact absurd heq (by simp)
        | false =>
          dsimp only at heq
          have hd1 : d1 = d := (isCyc_restore g (fuel + 1)).1 c d d1 hstep
          rcases List.mem_cons.mp hc' with rfl | hrest
          · exact hF c' d d1 hstep m k hwalk
          · rw [hd1] at heq
            exact ihc d d' heq c' hrest m k hwalk

theorem isCyc_total (g : Graph)
    (hcl : ∀ e ∈ g.edges, e.src ∈ g.nodes ∧ e.dst ∈ g.nodes) : ∀ fuel : Nat,
    (∀ (node : String) (d : List String), (∀ x ∈ d, x ∈ g.nodes) →
      d.Nodup → g.nodes.length + 1 ≤ fuel + d.length →
      is_cyclic g fuel node d ≠ none) ∧
    (∀ (cs d : List String), (∀ x ∈ d, x ∈ g.nodes) →
      d.Nodup → g.nodes.length + 1 ≤ fuel + d.length →
      isCyclicList g fuel cs d ≠ none) := by
  intro fuel
  induction fuel with
  | zero =>
    constructor
    · intro node d hsub hnd hbound
      exfalso
      have hle := (List.subperm_of_subset hnd hsub).length_le
      omega
    · intro cs d hsub hnd hbound
      exfalso
      have hle := (List.subperm_of_subset hnd hsub).length_le
      omega
  | succ fuel ih =>
    have hF : ∀ (node : String) (d : List String), (∀ x ∈ d, x ∈ g.nodes) →
        d.Nodup → g.nodes.length + 1 ≤ (fuel + 1) + d.length →
        is_cyclic g (fuel + 1) node d ≠ none := by
      intro node d hsub hnd hbound
      rw [is_cyclic_succ]
      by_cases hmem : node ∈ d
      · rw [if_pos hmem]
        simp
      · rw [if_neg hmem]
        by_cases hnode : node ∈ g.nodes
        · have hnd' : (node :: d).Nodup := List.nodup_cons.mpr ⟨hmem, hnd⟩
          have hsub' : ∀ x ∈ node :: d, x ∈ g.nodes := by
            intro x hx
            rcases List.mem_cons.mp hx with rfl | hxd
            · exact hnode
            · exact hsub x hxd
          have hbound' : g.nodes.length + 1 ≤ fuel + (node :: d).length := by
            simp only [List.length_cons]
            omega
          have htot := ih.2 (adjSorted g node) (node :: d) hsub' hnd' hbound'
          cases hrec : isCyclicList g fuel (adjSorted g node) (node :: d) with
          | none => exact absurd hrec htot
          | some bd =>
            obtain ⟨b, d1⟩ := bd
            cases b with
            | true => simp
            | false => simp
        · -- a node outside the graph has no children, so the inner loop is trivial
          have hadj : adjSorted g node = [] := by
            by_contra hne
            obtain ⟨c, hc⟩ := List.exists_mem_of_ne_nil _ hne
            exact hnode (edgeP_mem hcl (mem_adjSorted.mp hc)).1
          rw [hadj]
          simp [isCyclicList, List.foldl]
    refine ⟨hF, ?_⟩
    intro cs
    induction cs with
    | nil =>
      intro d hsub hnd hbound
      simp [isCyclicList, List.foldl]
    | cons c rest ihc =>
      intro d hsub hnd hbound
      rw [isCyclicList_cons]
      cases hstep : is_cyclic g (fuel + 1) c d with
      | none => exact absurd hstep (hF c d hsub hnd hbound)
      | some bd =>
        obtain ⟨b, d1⟩ := bd
        cases b with
        | true => simp
        | false =>
          dsimp only
          have hd1 : d1 = d := (isCyc_restore g (fuel + 1)).1 c d d1 hstep
          rw [hd1]
          exact ihc d hsub hnd hbound

theorem cycleCheckLoop_sound (g : Graph) (fuel : Nat) :
    ∀ ns : List String, cycleCheckLoop g fuel ns [] = some true →
      ∃ n ∈ ns, ∃ d', is_cyclic g fuel n [] = some (true, d') := by
  intro ns
  induction ns with
  | nil =>
    intro heq
    simp [cycleCheckLoop] at heq
  | cons n rest ih =>
    intro heq
    simp only [cycleCheckLoop] at heq
    cases hstep : is_cyclic g fuel n [] with
    | none => rw [hstep] at heq; simp at heq
    | some bd =>
      obtain ⟨b, d1⟩ := bd
      rw [hstep] at heq
      cases b with
      | true => exact ⟨n, by simp, d1, hstep⟩
      | false =>
        dsimp only at heq
        have hd1 : d1 = [] := (isCyc_restore g fuel).1 n [] d1 hstep
        rw [hd1] at heq
        obtain ⟨n', hn', hres⟩ := ih heq
        exact ⟨n', List.mem_cons_of_mem _ hn', hres⟩

theorem cycleCheckLoop_complete (g : Graph) (fuel : Nat) :
    ∀ ns : List String, cycleCheckLoop g fuel ns [] = some false →
      ∀ n ∈ ns, ∃ d', is_cyclic g fuel n [] = some (false, d') := by
  intro ns
  induction ns with
  | nil => intro heq n hn; simp at hn
  | cons n rest ih =>
    intro heq n' hn'
    simp only [cycleCheckLoop] at heq
    cases hstep : is_cyclic g fuel n [] with
    | none => rw [hstep] at heq; simp at heq
    | some bd =>
      obtain ⟨b, d1⟩ := bd
      rw [hstep] at heq
      cases b with
      | true =>
        dsimp only at heq
        exact absurd heq (by simp)
      | false =>
        dsimp only at heq
        have hd1 : d1 = [] := (isCyc_restore g fuel).1 n [] d1 hstep
        rcases List.mem_cons.mp hn' with rfl | hrest
        · exact ⟨d1, hstep⟩
        · rw [hd1] at heq
          exact ih heq n' hrest

theorem cycleCheckLoop_total (g : Graph)
    (hcl : ∀ e ∈ g.edges, e.src ∈ g.nodes ∧ e.dst ∈ g.nodes)
    (fuel : Nat) (hfuel : g.nodes.length + 1 ≤ fuel) :
    ∀ ns : List String, cycleCheckLoop g fuel ns [] ≠ none := by
  intro ns
  induction ns with
  | nil => simp [cycleCheckLoop]
  | cons n rest ih =>
    simp only [cycleCheckLoop]
    cases hstep : is_cyclic g fuel n [] with
    | none =>
      exact absurd hstep ((isCyc_total g hcl fuel).1 n [] (by simp) (by simp) (by simpa))
    | some bd =>
      obtain ⟨b, d1⟩ := bd
      cases b with
      | true => simp
      | false =>
        dsimp only
        have hd1 : d1 = [] := (isCyc_restore g fuel).1 n [] d1 hstep
        rw [hd1]
        exact ih

/-- C8: for every validated graph (with fuel covering the recursion depth):
if the graph contains a cycle, `run_scheduler` returns the cycle-detected
error — the very first check — so no LP line is produced; if the graph is
acyclic, the cycle check returns `False` for every start node and the run
proceeds past it. -/
theorem cycle_rejection (g : Graph) (fuel : Nat) (hwf : g.Wf)
    (hfuel : g.nodes.length + 1 ≤ fuel) :
    (Cyclic g → ∀ (obj : String) (lat : Option Int) (area : Option (List Int)),
      run_scheduler obj g lat area fuel =
        some (.error "Invalid DFG, there is a cycle detected in the graph.")) ∧
    (¬Cyclic g → cycleCheck g fuel = some false) := by
  have hcl := hwf.2.2.1
  have htot : cycleCheck g fuel ≠ none := by
    unfold cycleCheck
    exact cycleCheckLoop_total g hcl fuel hfuel g.nodes
  have hsound : cycleCheck g fuel = some true → Cyclic g := by
    intro h
    unfold cycleCheck at h
    obtain ⟨n, hn, d', hstep⟩ := cycleCheckLoop_sound g fuel g.nodes h
    exact (isCyc_true_sound g fuel).1 n [] d' (by simp) hstep
  have hcomp : cycleCheck g fuel = some false → ¬Cyclic g := by
    intro h hcyc
    unfold cycleCheck at h
    obtain ⟨m, k, hw⟩ := hcyc
    have hm : m ∈ g.nodes := walk_start_mem hcl hw
    obtain ⟨d', hstep⟩ := cycleCheckLoop_complete g fuel g.nodes h m hm
    exact ((isCyc_false_complete g fuel).1 m [] d' hstep m 0 (WalkTo.nil m)).2 k hw
  constructor
  · intro hcyc obj lat area
    have hct : cycleCheck g fuel = some true := by
      cases hc : cycleCheck g fuel with
      | none => exact absurd hc htot
      | some b =>
        cases b with
        | true => rfl
        | false => exact absurd hcyc (hcomp hc)
    unfold run_scheduler
    rw [hct]
  · intro hnc
    cases hc : cycleCheck g fuel with
    | none => exact absurd hc htot
    | some b =>
      cases b with
      | true => exact absurd (hsound hc) hnc
      | false => rfl

theorem cycle_rejection_witness :
    gCyc.Wf ∧ gCyc.nodes.length + 1 ≤ 10 ∧
    run_scheduler "MR-LC" gCyc (some 3) none 10 =
      some (.error "Invalid DFG, there is a cycle detected in the graph.") :=
  ⟨by decide, by decide,
    (cycle_rejection gCyc 10 (by decide) (by decide)).1
      ⟨"s", 1, WalkTo.cons (b := "a") (by decide) (WalkTo.cons (by decide) (WalkTo.nil "s"))⟩
      "MR-LC" (some 3) none⟩
